import Mathlib

/-!
A shallow embedding of `src/data-structures/hash-map/hashmap.h` (namespace
`dsa`, class `Hash_map<Key, Value>`): an open-addressing hash map with linear
probing, tombstone deletion, and load-factor driven growth.

Modelling conventions:
* The template is embedded at the instantiation `Key = Value = Nat` (the copy
  constructor's `values_[i] = other.keys_[i];` line only compiles when `Key`
  converts to `Value`), with the `std::hash` capability as an arbitrary
  function `hash : Nat → Nat`.  `new Key[n]()` value-initialization gives the
  default key/value `0` and the default mark `Mark.null`.
* `double max_load_factor_` is embedded as `ℚ`.  The constants involved
  (0.75 = 3/4 exactly; the clamp bound 0.20 and inputs like 0.9, 0.05 whose
  binary doubles differ from the exact rationals by < 2⁻⁵³) produce the same
  truncated products `(size_t)(max_load_factor_ * capacity_)` for every
  capacity arising here, so the rational model is observation-equivalent.
* `size_t` arithmetic that can wrap (`size_++`, `size_--`, `capacity_ << 1`)
  is taken modulo 2⁶⁴ explicitly.
* The unbounded probe loops (`seek`, and the reinsertion loop of
  `increase_capacity`) are modelled with fuel; a loop that exhausts its fuel
  corresponds exactly to a loop the C++ code never exits (the fuel amounts
  chosen are provably sufficient whenever a terminating slot exists).
  Fallible operations therefore return `Option`, with `none` meaning the C++
  call never returns.
* Out-of-range array reads (possible only in the zero-capacity state produced
  by `clear()`, where the C++ arrays are null pointers) are modelled by
  `List.getD` defaults; the bounds claims themselves are proved separately.
* `__builtin_clz` (used by `normalize_capacity` to round up to a power of
  two) is modelled by `Nat.log2` on the intrinsic's defined range
  (`4 ≤ cap < 2³¹`).
-/

namespace dsa

/-- The slot mark: `enum Mark { null, live, dead }`. -/
inductive Mark where
  | null : Mark
  | live : Mark
  | dead : Mark
deriving DecidableEq, Repr

/-- The state of a `Hash_map<Key, Value>` object: the three parallel storage
regions and the scalar fields, in declaration order. -/
structure Hash_map where
  size_ : Nat
  capacity_ : Nat
  keys_ : List Nat
  values_ : List Nat
  marks_ : List Mark
  max_load_factor_ : ℚ
  threshold_size_ : Nat
deriving DecidableEq, Repr

namespace Hash_map

/-- `static constexpr double maxlf_max = 0.75;` -/
def maxlf_max : ℚ := 3 / 4

/-- `static constexpr double maxlf_min = 0.20;` -/
def maxlf_min : ℚ := 1 / 5

/-- The conversion `(size_t)(double)` applied to the nonnegative products
`max_load_factor_ * capacity_` (truncation toward zero = floor). -/
def qtrunc (q : ℚ) : Nat := ⌊q⌋.toNat

/-- `normalize_capacity`: floor of 4, round a non-power-of-two up to the next
power of two.  `1 << (32 - __builtin_clz(cap))` is modelled by
`2 ^ (Nat.log2 cap + 1)`, its value on the intrinsic's defined range. -/
def normalize_capacity (cap : Nat) : Nat :=
  if cap < 4 then 4
  else if (cap - 1) &&& cap ≠ 0 then 2 ^ (Nat.log2 cap + 1)
  else cap

/-- `normalize_maxlf`: clamp the load factor into `[maxlf_min, maxlf_max]`. -/
def normalize_maxlf (maxlf : ℚ) : ℚ :=
  if maxlf < maxlf_min then maxlf_min
  else if maxlf > maxlf_max then maxlf_max
  else maxlf

/-- The constructor `Hash_map(size_t size, double max_load_factor)`.
Member-initialization order is declaration order, so `threshold_size_` is
computed from the already-normalized factor and capacity. -/
def construct (size : Nat) (max_load_factor : ℚ) : Hash_map :=
  let cap := normalize_capacity size
  let mlf := normalize_maxlf max_load_factor
  { size_ := 0
    capacity_ := cap
    keys_ := List.replicate cap 0
    values_ := List.replicate cap 0
    marks_ := List.replicate cap Mark.null
    max_load_factor_ := mlf
    threshold_size_ := qtrunc (mlf * cap) }

/-- `auto keep_bits = capacity_ - 1;` at type `size_t`: for `capacity_ = 0`
the subtraction wraps to `2⁶⁴ - 1`. -/
def keep_bits (m : Hash_map) : Nat :=
  if m.capacity_ = 0 then 2 ^ 64 - 1 else m.capacity_ - 1

/-- The probe loop shared by `seek` and the reinsertion loop of
`increase_capacity`: advance `index = (index + 1) & kb` until `stop index`,
with explicit fuel (`none` = the C++ loop never exits within `fuel` checks). -/
def probe (stop : Nat → Bool) (kb : Nat) : Nat → Nat → Option Nat
  | 0, _ => none
  | fuel + 1, index => if stop index then some index else probe stop kb fuel ((index + 1) &&& kb)

/-- The stop condition of a probe loop of the form
`while (keys[index] != k && marks[index] != null)` over given storage. -/
def stop_on (keys : List Nat) (marks : List Mark) (k : Nat) (index : Nat) : Bool :=
  decide (keys.getD index 0 = k) || decide (marks.getD index Mark.null = Mark.null)

/-- The stop condition of `seek`'s loop on a map state. -/
def seek_stop (m : Hash_map) (k : Nat) (index : Nat) : Bool :=
  stop_on m.keys_ m.marks_ k index

/-- `seek(k)`: start at `hasher_(k) & keep_bits` and linear-probe until the
slot's key equals `k` or the slot is Empty.  Fuel `capacity_ + 1` is exact:
if any stopping slot exists it is reached within `capacity_` checks (proved
below), and otherwise the C++ loop runs forever (`none`). -/
def seek (hash : Nat → Nat) (m : Hash_map) (k : Nat) : Option Nat :=
  probe (seek_stop m k) (keep_bits m) (m.capacity_ + 1) (hash k &&& keep_bits m)

/-- The reinsertion loop of `increase_capacity`: for each old index in `idxs`
whose mark is `live`, place its entry at the first Empty slot of the linear
probe from its new home `hasher_(keys_[i]) & (tmp_cap - 1)`.  Fuel `tmp_cap`
per placement is exact in the same sense as for `seek`. -/
def rehash (hash : Nat → Nat) (m : Hash_map) (tmp_cap kb : Nat) :
    List Nat → List Nat → List Nat → List Mark → Option (List Nat × List Nat × List Mark)
  | [], tk, tv, tm => some (tk, tv, tm)
  | i :: rest, tk, tv, tm =>
    if m.marks_.getD i Mark.null = Mark.live then
      match probe (fun j => decide (tm.getD j Mark.null = Mark.null)) kb tmp_cap
          (hash (m.keys_.getD i 0) &&& kb) with
      | none => none
      | some r =>
        rehash hash m tmp_cap kb rest (tk.set r (m.keys_.getD i 0))
          (tv.set r (m.values_.getD i 0)) (tm.set r Mark.live)
    else rehash hash m tmp_cap kb rest tk tv tm

/-- `increase_capacity()`.  After the reinsertion loop the source calls
`clear()` — zeroing `size_`, `capacity_`, `threshold_size_` and
`max_load_factor_` — and then restores only `capacity_`, the arrays, and
`threshold_size_ = max_load_factor_ * capacity_`, an expression evaluated on
the just-zeroed fields: the resulting state has `size_ = 0`,
`max_load_factor_ = 0` and `threshold_size_ = 0`. -/
def increase_capacity (hash : Nat → Nat) (m : Hash_map) : Option Hash_map :=
  let tmp_cap := if m.capacity_ = 0 then 4 else (2 * m.capacity_) % 2 ^ 64
  let kb := if tmp_cap = 0 then 2 ^ 64 - 1 else tmp_cap - 1
  match rehash hash m tmp_cap kb (List.range m.capacity_) (List.replicate tmp_cap 0)
      (List.replicate tmp_cap 0) (List.replicate tmp_cap Mark.null) with
  | none => none
  | some (tk, tv, tm) =>
    some { size_ := 0
           capacity_ := tmp_cap
           keys_ := tk
           values_ := tv
           marks_ := tm
           max_load_factor_ := 0
           threshold_size_ := 0 }

/-- `clear()`: release storage, zero every scalar field. -/
def clear (_m : Hash_map) : Hash_map :=
  { size_ := 0, capacity_ := 0, keys_ := [], values_ := [], marks_ := []
    max_load_factor_ := 0, threshold_size_ := 0 }

/-- `operator[](k)`: resolve `index = seek(k)`; on an Empty slot run
`while (size_ >= threshold_size_) increase_capacity();` and then install the
key.  Once that `while` loop is entered it never exits: `increase_capacity`
(via its internal `clear()`) leaves `size_ = 0` and `threshold_size_ = 0`, so
the condition `0 >= 0` holds on every subsequent check.  Entry into the loop
is therefore modelled as divergence (`none`).  Returns the new state and the
resolved index (the slot whose value cell the C++ reference denotes). -/
def subscript (hash : Nat → Nat) (m : Hash_map) (k : Nat) : Option (Hash_map × Nat) :=
  match seek hash m k with
  | none => none
  | some index =>
    if m.marks_.getD index Mark.null = Mark.null then
      if m.size_ ≥ m.threshold_size_ then none
      else
        some ({ m with keys_ := m.keys_.set index k
                       marks_ := m.marks_.set index Mark.live
                       size_ := (m.size_ + 1) % 2 ^ 64 }, index)
    else some (m, index)

/-- `insert(k, v)`: `operator[](k) = v`. -/
def insert (hash : Nat → Nat) (m : Hash_map) (k v : Nat) : Option Hash_map :=
  (subscript hash m k).map fun p => { p.1 with values_ := p.1.values_.set p.2 v }

/-- `set(k, v)`: alias of `insert`. -/
def set_kv (hash : Nat → Nat) (m : Hash_map) (k v : Nat) : Option Hash_map :=
  insert hash m k v

/-- `remove(k)`: if the resolved slot is Occupied, mark it Tombstone and run
`size_--` (a `size_t` decrement, hence the explicit wrap modulo 2⁶⁴). -/
def remove (hash : Nat → Nat) (m : Hash_map) (k : Nat) : Option Hash_map :=
  (seek hash m k).map fun index =>
    if m.marks_.getD index Mark.null = Mark.live then
      { m with marks_ := m.marks_.set index Mark.dead
               size_ := (m.size_ + (2 ^ 64 - 1)) % 2 ^ 64 }
    else m

/-- `contains(k)`: the resolved slot's mark is Occupied. -/
def contains (hash : Nat → Nat) (m : Hash_map) (k : Nat) : Option Bool :=
  (seek hash m k).map fun index => decide (m.marks_.getD index Mark.null = Mark.live)

/-- The value read `rhs[k]` as it occurs in `operator==`: the source calls the
non-const `operator[]` on a const reference, which is ill-formed as written;
the evident intent (and the only reading that compiles) is a plain lookup of
the value cell at the resolved index, modelled here. -/
def value_at (hash : Nat → Nat) (m : Hash_map) (k : Nat) : Option Nat :=
  (seek hash m k).map fun index => m.values_.getD index 0

/-- The value `operator[](k)` returns (the referenced cell, read after any
insertion the call performs). -/
def at_value (hash : Nat → Nat) (m : Hash_map) (k : Nat) : Option Nat :=
  (subscript hash m k).map fun p => p.1.values_.getD p.2 0

/-- The slot scan of `operator==`: for each index `i` of the left map (Empty
and Tombstone slots included), require `rhs.contains(keys_[i])` and
`values_[i] == rhs[keys_[i]]`. -/
def eq_scan (hash : Nat → Nat) (a b : Hash_map) : List Nat → Option Bool
  | [] => some true
  | i :: rest =>
    match contains hash b (a.keys_.getD i 0) with
    | none => none
    | some false => some false
    | some true =>
      match value_at hash b (a.keys_.getD i 0) with
      | none => none
      | some v => if a.values_.getD i 0 ≠ v then some false else eq_scan hash a b rest

/-- `operator==` (minus the physical-identity shortcut `this == &rhs`, which
has no shallow counterpart): sizes first, then the full slot scan. -/
def eq_op (hash : Nat → Nat) (a b : Hash_map) : Option Bool :=
  if a.size_ ≠ b.size_ then some false
  else eq_scan hash a b (List.range a.capacity_)

/-- `set_max_load_factor(x)`: clamp, recompute `threshold_size_`, then grow
once if `size_ >= threshold_size_`. -/
def set_max_load_factor (hash : Nat → Nat) (m : Hash_map) (x : ℚ) : Option Hash_map :=
  let mlf := normalize_maxlf x
  let thr := qtrunc (mlf * m.capacity_)
  let m' := { m with max_load_factor_ := mlf, threshold_size_ := thr }
  if m'.size_ ≥ thr then increase_capacity hash m' else some m'

/-- The copy constructor `Hash_map(const Hash_map&)`.  `threshold_size_` is
recomputed from the copied factor and capacity, and the element loop runs
`values_[i] = other.keys_[i];` — the values region is filled from the
source's keys region. -/
def copy_ctor (o : Hash_map) : Hash_map :=
  { size_ := o.size_
    capacity_ := o.capacity_
    keys_ := (List.range o.capacity_).map fun i => o.keys_.getD i 0
    values_ := (List.range o.capacity_).map fun i => o.keys_.getD i 0
    marks_ := (List.range o.capacity_).map fun i => o.marks_.getD i Mark.null
    max_load_factor_ := o.max_load_factor_
    threshold_size_ := qtrunc (o.max_load_factor_ * o.capacity_) }

/-- Copy assignment `operator=` (self-assignment aside): every scalar field is
copied, including `threshold_size_`, and all three regions element-wise. -/
def assign (o : Hash_map) : Hash_map :=
  { size_ := o.size_
    capacity_ := o.capacity_
    keys_ := (List.range o.capacity_).map fun i => o.keys_.getD i 0
    values_ := (List.range o.capacity_).map fun i => o.values_.getD i 0
    marks_ := (List.range o.capacity_).map fun i => o.marks_.getD i Mark.null
    max_load_factor_ := o.max_load_factor_
    threshold_size_ := o.threshold_size_ }

/-- `size()` -/
def size (m : Hash_map) : Nat := m.size_

/-- `capacity()` -/
def capacity (m : Hash_map) : Nat := m.capacity_

/-- `max_load_factor()` -/
def max_load_factor (m : Hash_map) : ℚ := m.max_load_factor_

/-- `current_load_factor()` -/
def current_load_factor (m : Hash_map) : ℚ :=
  if m.capacity_ = 0 then 0 else (m.size_ : ℚ) / (m.capacity_ : ℚ)

end Hash_map

/-- A deterministic stand-in for `std::hash<int>` on the concrete runs (the
identity, which is what common library implementations use). -/
def id_hash : Nat → Nat := fun n => n

namespace Hash_map

/-- The index visited by a probe loop after `t` steps from `start`
(each step is `index = (index + 1) & kb`). -/
def walk (kb start : Nat) : Nat → Nat
  | 0 => start
  | t + 1 => (walk kb start t + 1) &&& kb

/-- The probe-order position of slot `j` relative to home index `h` in a table
of `cap` slots: the number of probe steps from `h` to `j`. -/
def dist (cap h j : Nat) : Nat := (j + cap - h) % cap

/-- The probe-chain invariant on storage of `cap` slots: every non-Empty slot
`i` is reachable from the home index of its stored key without the probe loop
for that key stopping earlier — every slot strictly before `i` in probe order
is non-Empty and holds a different key. -/
def chain_on (hash : Nat → Nat) (cap : Nat) (keys : List Nat) (marks : List Mark) : Prop :=
  ∀ i, i < cap → marks.getD i Mark.null ≠ Mark.null →
    ∀ t, t < dist cap (hash (keys.getD i 0) &&& (cap - 1)) i →
      stop_on keys marks (keys.getD i 0)
        (walk (cap - 1) (hash (keys.getD i 0) &&& (cap - 1)) t) = false

/-- The structural invariant maintained by every terminating operation. -/
structure Inv (hash : Nat → Nat) (m : Hash_map) : Prop where
  cap_pow : m.capacity_ = 0 ∨ ∃ n, m.capacity_ = 2 ^ n
  len_keys : m.keys_.length = m.capacity_
  len_values : m.values_.length = m.capacity_
  len_marks : m.marks_.length = m.capacity_
  zero_state : m.capacity_ = 0 → m.size_ = 0 ∧ m.threshold_size_ = 0
  chain : chain_on hash m.capacity_ m.keys_ m.marks_

end Hash_map

/-- The states reachable through terminating public operations of `Hash_map`
(an operation returning `none` models a call that never returns, so it
produces no state).  Constructor sizes are restricted to the range in which
`__builtin_clz` — and hence `normalize_capacity` — has defined behavior. -/
inductive Reachable (hash : Nat → Nat) : Hash_map → Prop where
  | construct (size : Nat) (mlf : ℚ) (hs : size < 2 ^ 31) :
      Reachable hash (Hash_map.construct size mlf)
  | subscript_step {m m' : Hash_map} (k r : Nat) :
      Reachable hash m → Hash_map.subscript hash m k = some (m', r) → Reachable hash m'
  | insert_step {m m' : Hash_map} (k v : Nat) :
      Reachable hash m → Hash_map.insert hash m k v = some m' → Reachable hash m'
  | remove_step {m m' : Hash_map} (k : Nat) :
      Reachable hash m → Hash_map.remove hash m k = some m' → Reachable hash m'
  | set_mlf_step {m m' : Hash_map} (x : ℚ) :
      Reachable hash m → Hash_map.set_max_load_factor hash m x = some m' → Reachable hash m'
  | clear_step {m : Hash_map} :
      Reachable hash m → Reachable hash (Hash_map.clear m)
  | copy_step {m : Hash_map} :
      Reachable hash m → Reachable hash (Hash_map.copy_ctor m)
  | assign_step {m : Hash_map} :
      Reachable hash m → Reachable hash (Hash_map.assign m)

/-- The states reachable through terminating public operations in histories
that never trigger a growth event: `set_max_load_factor` is admitted only
when the new threshold strictly exceeds the live count, so
`increase_capacity` is never entered (insertions can never grow: the growth
loop of `operator[]`, once entered, never returns). -/
inductive ReachableNG (hash : Nat → Nat) : Hash_map → Prop where
  | construct (size : Nat) (mlf : ℚ) (hs : size < 2 ^ 31) :
      ReachableNG hash (Hash_map.construct size mlf)
  | subscript_step {m m' : Hash_map} (k r : Nat) :
      ReachableNG hash m → Hash_map.subscript hash m k = some (m', r) → ReachableNG hash m'
  | insert_step {m m' : Hash_map} (k v : Nat) :
      ReachableNG hash m → Hash_map.insert hash m k v = some m' → ReachableNG hash m'
  | remove_step {m m' : Hash_map} (k : Nat) :
      ReachableNG hash m → Hash_map.remove hash m k = some m' → ReachableNG hash m'
  | set_mlf_ng_step {m : Hash_map} (x : ℚ)
      (hng : m.size_ < Hash_map.qtrunc (Hash_map.normalize_maxlf x * m.capacity_)) :
      ReachableNG hash m →
      ReachableNG hash { m with max_load_factor_ := Hash_map.normalize_maxlf x
                                threshold_size_ :=
                                  Hash_map.qtrunc (Hash_map.normalize_maxlf x * m.capacity_) }
  | clear_step {m : Hash_map} :
      ReachableNG hash m → ReachableNG hash (Hash_map.clear m)
  | copy_step {m : Hash_map} :
      ReachableNG hash m → ReachableNG hash (Hash_map.copy_ctor m)
  | assign_step {m : Hash_map} :
      ReachableNG hash m → ReachableNG hash (Hash_map.assign m)

namespace Hash_map

/-- The growth-free invariant: the size/threshold accounting that holds on
every state of a growth-free history. -/
structure InvNG (m : Hash_map) : Prop where
  size_le : m.size_ ≤ m.threshold_size_
  thr_eq : m.threshold_size_ = qtrunc (m.max_load_factor_ * m.capacity_)
  size_live : m.size_ = m.marks_.countP (fun mk => decide (mk = Mark.live))
  len_marks : m.marks_.length = m.capacity_
  cap_le : m.capacity_ ≤ 2 ^ 31
  cap_pow : m.capacity_ = 0 ∨ ∃ n, m.capacity_ = 2 ^ n
  maxlf_le : m.max_load_factor_ ≤ maxlf_max

end Hash_map

/-- A fresh default map `Hash_map(4, 0.75)`: `capacity_ = 4`,
`threshold_size_ = 3`. -/
def fresh_map : Hash_map := Hash_map.construct 4 (3 / 4)

/-- The run of the tombstone-reuse scenario: `insert(1, 10)`, `remove(1)`,
`insert(1, 20)` on a fresh map, with the identity hash. -/
def c1_run : Option Hash_map :=
  ((Hash_map.insert id_hash fresh_map 1 10).bind fun s =>
    Hash_map.remove id_hash s 1).bind fun s =>
    Hash_map.insert id_hash s 1 20

/-- The run of concrete scenario 1: three inserts of distinct keys on a fresh
map, with the identity hash. -/
def c3_run : Option Hash_map :=
  ((Hash_map.insert id_hash fresh_map 1 11).bind fun s =>
    Hash_map.insert id_hash s 2 12).bind fun s =>
    Hash_map.insert id_hash s 3 13

/-- A run that triggers a growth event: `insert(1, 7)` then
`set_max_load_factor(0.05)` (the clamped factor 0.20 gives threshold
`⌊0.20 × 4⌋ = 0 ≤ size`, so `increase_capacity` fires). -/
def c2_run : Option Hash_map :=
  (Hash_map.insert id_hash fresh_map 1 7).bind fun s =>
    Hash_map.set_max_load_factor id_hash s (1 / 20)

/-- A map on which `operator==` succeeds against itself: the single live key
is the default key 0 with the default value 0, so the placeholder slots the
scan also inspects agree with it. -/
def c4_map : Hash_map := (Hash_map.insert id_hash fresh_map 0 0).getD fresh_map

/-- A map with one live entry `1 ↦ 7`, the copy-construction source. -/
def c5_map : Hash_map := (Hash_map.insert id_hash fresh_map 1 7).getD fresh_map

/-- A table with every slot Occupied and no stored key equal to 5: on it the
probe loop of `seek(5)` never terminates. -/
def full_table : Hash_map :=
  { size_ := 4, capacity_ := 4, keys_ := [10, 11, 12, 13], values_ := [0, 0, 0, 0]
    marks_ := [Mark.live, Mark.live, Mark.live, Mark.live]
    max_load_factor_ := 3 / 4, threshold_size_ := 3 }

/-- The fresh default map, written out slot by slot (proved equal to
`fresh_map` below; the explicit form lets concrete runs be evaluated by
definitional reduction). -/
def fresh_lit : Hash_map :=
  { size_ := 0, capacity_ := 4, keys_ := [0, 0, 0, 0], values_ := [0, 0, 0, 0]
    marks_ := [Mark.null, Mark.null, Mark.null, Mark.null]
    max_load_factor_ := 3 / 4, threshold_size_ := 3 }

/-- The state after `insert(1, 7)` on a fresh map. -/
def c2_mid : Hash_map :=
  { size_ := 1, capacity_ := 4, keys_ := [0, 1, 0, 0], values_ := [0, 7, 0, 0]
    marks_ := [Mark.null, Mark.live, Mark.null, Mark.null]
    max_load_factor_ := 3 / 4, threshold_size_ := 3 }

/-- The state `c2_run` ends in: the growth doubled the capacity, rehashed the
one live entry, and (through `clear()`) zeroed `size_`, `max_load_factor_`
and `threshold_size_`. -/
def c2_final : Hash_map :=
  { size_ := 0, capacity_ := 8
    keys_ := [0, 1, 0, 0, 0, 0, 0, 0], values_ := [0, 7, 0, 0, 0, 0, 0, 0]
    marks_ := [Mark.null, Mark.live, Mark.null, Mark.null, Mark.null, Mark.null,
               Mark.null, Mark.null]
    max_load_factor_ := 0, threshold_size_ := 0 }

/-- The state a growth event on an empty fresh map produces. -/
def grown_empty : Hash_map :=
  { size_ := 0, capacity_ := 8, keys_ := List.replicate 8 0
    values_ := List.replicate 8 0, marks_ := List.replicate 8 Mark.null
    max_load_factor_ := 0, threshold_size_ := 0 }

end dsa

namespace dsa
namespace Hash_map

/-! ### List access helpers -/

theorem getD_set_self {α : Type} {l : List α} {i : Nat} {a d : α} (h : i < l.length) :
    (l.set i a).getD i d = a := by
  simp [List.getD_eq_getElem?_getD, List.getElem?_set_self h]

theorem getD_set_ne {α : Type} {l : List α} {i j : Nat} {a d : α} (h : i ≠ j) :
    (l.set i a).getD j d = l.getD j d := by
  simp [List.getD_eq_getElem?_getD, List.getElem?_set_ne h]

theorem getD_replicate_lt {α : Type} {n i : Nat} {a d : α} (h : i < n) :
    (List.replicate n a).getD i d = a := by
  simp [List.getD_eq_getElem?_getD, List.getElem?_replicate_of_lt h]

theorem getD_map_range {α : Type} {f : Nat → α} {cap i : Nat} {d : α} (h : i < cap) :
    ((List.range cap).map f).getD i d = f i := by
  simp [List.getD_eq_getElem?_getD, List.getElem?_range h]

/-! ### Probe walk arithmetic -/

theorem walk_succ_shift (kb start t : Nat) :
    walk kb start (t + 1) = walk kb ((start + 1) &&& kb) t := by
  induction t with
  | zero => rfl
  | succ t ih =>
    show (walk kb start (t + 1) + 1) &&& kb = (walk kb ((start + 1) &&& kb) t + 1) &&& kb
    rw [ih]

theorem walk_mod {cap n : Nat} (hc : cap = 2 ^ n) {start : Nat} (hs : start < cap) :
    ∀ t, walk (cap - 1) start t = (start + t) % cap := by
  intro t
  induction t with
  | zero => simpa [walk] using (Nat.mod_eq_of_lt hs).symm
  | succ t ih =>
    show (walk (cap - 1) start t + 1) &&& (cap - 1) = (start + (t + 1)) % cap
    rw [ih, hc, Nat.and_pow_two_sub_one_eq_mod, Nat.mod_add_mod, ← Nat.add_assoc]

theorem walk_lt {cap n : Nat} (hc : cap = 2 ^ n) {start : Nat} (hs : start < cap) (t : Nat) :
    walk (cap - 1) start t < cap := by
  rw [walk_mod hc hs t]
  exact Nat.mod_lt _ (hc ▸ Nat.two_pow_pos n)

theorem dist_lt {cap : Nat} (hpos : 0 < cap) (h j : Nat) : dist cap h j < cap :=
  Nat.mod_lt _ hpos

theorem walk_dist {cap n : Nat} (hc : cap = 2 ^ n) {h j : Nat} (hh : h < cap) (hj : j < cap) :
    walk (cap - 1) h (dist cap h j) = j := by
  rw [walk_mod hc hh, dist, Nat.add_mod_mod]
  have h1 : h ≤ j + cap := by omega
  rw [Nat.add_sub_cancel' h1, Nat.add_mod_right, Nat.mod_eq_of_lt hj]

theorem walk_inj {cap n : Nat} (hc : cap = 2 ^ n) {h : Nat} (hh : h < cap) {t t' : Nat}
    (ht : t < cap) (ht' : t' < cap) (heq : walk (cap - 1) h t = walk (cap - 1) h t') :
    t = t' := by
  rw [walk_mod hc hh, walk_mod hc hh] at heq
  have : t % cap = t' % cap := by
    have h1 : (h + t) % cap = (h + t') % cap := heq
    have h2 : Nat.ModEq cap (h + t) (h + t') := h1
    exact Nat.ModEq.add_left_cancel' h h2
  rwa [Nat.mod_eq_of_lt ht, Nat.mod_eq_of_lt ht'] at this

theorem dist_walk {cap n : Nat} (hc : cap = 2 ^ n) {h : Nat} (hh : h < cap) {t : Nat}
    (ht : t < cap) : dist cap h (walk (cap - 1) h t) = t := by
  have hpos : 0 < cap := hc ▸ Nat.two_pow_pos n
  have hw : walk (cap - 1) h (dist cap h (walk (cap - 1) h t)) = walk (cap - 1) h t :=
    walk_dist hc hh (walk_lt hc hh t)
  exact walk_inj hc hh (dist_lt hpos _ _) ht hw

/-! ### Probe loop lemmas -/

theorem probe_some_spec {stop : Nat → Bool} {kb : Nat} :
    ∀ {fuel start r : Nat}, probe stop kb fuel start = some r →
      ∃ t, t < fuel ∧ r = walk kb start t ∧ stop r = true ∧
        ∀ u, u < t → stop (walk kb start u) = false := by
  intro fuel
  induction fuel with
  | zero => intro start r h; simp [probe] at h
  | succ fuel ih =>
    intro start r h
    rw [probe] at h
    by_cases hs : stop start
    · rw [if_pos hs] at h
      refine ⟨0, Nat.succ_pos _, ?_, ?_, ?_⟩
      · simpa [walk] using (Option.some_injective _ h).symm
      · have : r = start := (Option.some_injective _ h).symm
        rwa [this]
      · intro u hu; omega
    · rw [if_neg hs] at h
      obtain ⟨t, htf, hw, hst, hfirst⟩ := ih h
      refine ⟨t + 1, by omega, ?_, hst, ?_⟩
      · rwa [walk_succ_shift]
      · intro u hu
        cases u with
        | zero => simpa [walk] using hs
        | succ u => rw [walk_succ_shift]; exact hfirst u (by omega)

theorem probe_eq_none {stop : Nat → Bool} {kb : Nat} :
    ∀ (fuel : Nat) {start : Nat}, (∀ t, stop (walk kb start t) = false) →
      probe stop kb fuel start = none := by
  intro fuel
  induction fuel with
  | zero => intro start _; rfl
  | succ fuel ih =>
    intro start hall
    rw [probe]
    have h0 : stop start = false := by simpa [walk] using hall 0
    rw [if_neg (by simp [h0])]
    exact ih fun t => by rw [← walk_succ_shift]; exact hall (t + 1)

theorem probe_isSome {stop : Nat → Bool} {kb : Nat} :
    ∀ {fuel start t : Nat}, t < fuel → stop (walk kb start t) = true →
      (probe stop kb fuel start).isSome := by
  intro fuel
  induction fuel with
  | zero => intro start t ht _; omega
  | succ fuel ih =>
    intro start t ht hs
    rw [probe]
    by_cases h0 : stop start
    · simp [h0]
    · rw [if_neg h0]
      cases t with
      | zero => simp [walk] at hs; exact absurd hs h0
      | succ t => rw [walk_succ_shift] at hs; exact ih (by omega) hs

theorem probe_some_lt {stop : Nat → Bool} {cap n fuel start r : Nat} (hc : cap = 2 ^ n)
    (hs : start < cap) (h : probe stop (cap - 1) fuel start = some r) : r < cap := by
  obtain ⟨t, _, hw, _, _⟩ := probe_some_spec h
  rw [hw]
  exact walk_lt hc hs t

end Hash_map
end dsa

namespace dsa
namespace Hash_map

/-! ### Power-of-two arithmetic -/

theorem pow2_of_and_pred {sz : Nat} (h0 : 0 < sz) (h : (sz - 1) &&& sz = 0) :
    ∃ n, sz = 2 ^ n := by
  by_cases hp : sz = 2 ^ Nat.log2 sz
  · exact ⟨_, hp⟩
  · exfalso
    have hne : sz ≠ 0 := by omega
    have h1 : 2 ^ Nat.log2 sz ≤ sz := by
      rw [Nat.log2_eq_log_two]
      exact Nat.pow_log_le_self 2 hne
    have h2 : sz < 2 ^ (Nat.log2 sz + 1) := by
      rw [Nat.log2_eq_log_two]
      exact Nat.lt_pow_succ_log_self (by omega) sz
    set n := Nat.log2 sz with hn
    have h3 : 2 ^ n < sz := lt_of_le_of_ne h1 fun hs => hp hs.symm
    have h4 : 2 ^ (n + 1) = 2 * 2 ^ n := by rw [Nat.pow_succ]; omega
    have hpow : 0 < 2 ^ n := Nat.two_pow_pos n
    have hdiv : sz / 2 ^ n = 1 := Nat.div_eq_of_lt_le (by omega) (by omega)
    have hdiv' : (sz - 1) / 2 ^ n = 1 := Nat.div_eq_of_lt_le (by omega) (by omega)
    have hb1 : sz.testBit n = true := by
      rw [Nat.testBit_to_div_mod, hdiv]; rfl
    have hb2 : (sz - 1).testBit n = true := by
      rw [Nat.testBit_to_div_mod, hdiv']; rfl
    have hb : ((sz - 1) &&& sz).testBit n = false := by
      rw [h, Nat.zero_testBit]
    rw [Nat.testBit_and, hb1, hb2] at hb
    simp at hb

theorem normalize_capacity_pow (sz : Nat) : ∃ n, normalize_capacity sz = 2 ^ n := by
  rw [normalize_capacity]
  by_cases h1 : sz < 4
  · exact ⟨2, by rw [if_pos h1]; rfl⟩
  · rw [if_neg h1]
    by_cases h2 : (sz - 1) &&& sz ≠ 0
    · exact ⟨Nat.log2 sz + 1, by rw [if_pos h2]⟩
    · rw [if_neg h2]
      exact pow2_of_and_pred (by omega) (by omega)

theorem normalize_capacity_le {sz : Nat} (h : sz < 2 ^ 31) :
    normalize_capacity sz ≤ 2 ^ 31 := by
  rw [normalize_capacity]
  by_cases h1 : sz < 4
  · rw [if_pos h1]; norm_num
  · rw [if_neg h1]
    by_cases h2 : (sz - 1) &&& sz ≠ 0
    · rw [if_pos h2]
      have hlog : Nat.log2 sz + 1 ≤ 31 := by
        rw [Nat.log2_eq_log_two]
        have := Nat.log_lt_of_lt_pow (b := 2) (x := 31) (y := sz) (by omega) h
        omega
      exact Nat.pow_le_pow_right (by omega) hlog
    · rw [if_neg h2]; omega

theorem pow_double_mod (n : Nat) :
    (2 * 2 ^ n) % 2 ^ 64 = 0 ∨ ∃ j, (2 * 2 ^ n) % 2 ^ 64 = 2 ^ j := by
  have h : 2 * 2 ^ n = 2 ^ (n + 1) := by rw [Nat.pow_succ]; omega
  by_cases hn : n + 1 < 64
  · right
    refine ⟨n + 1, ?_⟩
    rw [h, Nat.mod_eq_of_lt (Nat.pow_lt_pow_right (by omega) hn)]
  · left
    have hsplit : (2 : Nat) ^ (n + 1) = 2 ^ 64 * 2 ^ (n + 1 - 64) := by
      rw [← pow_add]
      congr 1
      omega
    rw [h, hsplit, Nat.mul_mod_right]

theorem keep_bits_eq {m : Hash_map} (h : m.capacity_ ≠ 0) :
    keep_bits m = m.capacity_ - 1 := if_neg h

/-! ### Rational truncation -/

theorem qtrunc_le {q : ℚ} {c : Nat} (h : q ≤ (c : ℚ)) : qtrunc q ≤ c := by
  rw [qtrunc, Int.toNat_le]
  calc ⌊q⌋ ≤ ⌊(c : ℚ)⌋ := Int.floor_le_floor h
    _ = (c : ℤ) := Int.floor_natCast c

theorem qtrunc_mul_le {mlf : ℚ} {c : Nat} (h : mlf ≤ maxlf_max) :
    qtrunc (mlf * c) ≤ c := by
  apply qtrunc_le
  calc mlf * (c : ℚ) ≤ maxlf_max * c :=
        mul_le_mul_of_nonneg_right h (by positivity)
    _ ≤ 1 * c := by
        apply mul_le_mul_of_nonneg_right _ (by positivity)
        rw [maxlf_max]; norm_num
    _ = c := one_mul _

theorem normalize_maxlf_le (x : ℚ) : normalize_maxlf x ≤ maxlf_max := by
  rw [normalize_maxlf]
  by_cases h1 : x < maxlf_min
  · rw [if_pos h1, maxlf_min, maxlf_max]; norm_num
  · rw [if_neg h1]
    by_cases h2 : x > maxlf_max
    · rw [if_pos h2]
    · rw [if_neg h2]; exact le_of_not_lt h2

/-! ### `seek` structure -/

theorem walk_cycle {cap n : Nat} (hc : cap = 2 ^ n) {start : Nat} (hs : start < cap) :
    walk (cap - 1) start cap = start := by
  rw [walk_mod hc hs, Nat.add_mod_right, Nat.mod_eq_of_lt hs]

theorem seek_some_spec {hash : Nat → Nat} {m : Hash_map} {k r n : Nat}
    (hc : m.capacity_ = 2 ^ n) (h : seek hash m k = some r) :
    ∃ t, t < m.capacity_ ∧
      r = walk (m.capacity_ - 1) (hash k &&& (m.capacity_ - 1)) t ∧
      seek_stop m k r = true ∧
      ∀ u, u < t →
        seek_stop m k (walk (m.capacity_ - 1) (hash k &&& (m.capacity_ - 1)) u) = false := by
  have hcap0 : m.capacity_ ≠ 0 := by
    rw [hc]; exact (Nat.two_pow_pos n).ne'
  rw [seek, keep_bits_eq hcap0] at h
  have hs : hash k &&& (m.capacity_ - 1) < m.capacity_ := by
    rw [hc, Nat.and_pow_two_sub_one_eq_mod]
    exact Nat.mod_lt _ (Nat.two_pow_pos n)
  obtain ⟨t, htf, hw, hst, hfirst⟩ := probe_some_spec h
  have htlt : t < m.capacity_ := by
    rcases Nat.lt_or_ge t m.capacity_ with h1 | h1
    · exact h1
    · exfalso
      have ht : t = m.capacity_ := by omega
      have hw0 : walk (m.capacity_ - 1) (hash k &&& (m.capacity_ - 1)) t
          = hash k &&& (m.capacity_ - 1) := by
        rw [ht]; exact walk_cycle hc hs
      have h0 : seek_stop m k (walk (m.capacity_ - 1) (hash k &&& (m.capacity_ - 1)) 0)
          = false := hfirst 0 (by omega)
      rw [show walk (m.capacity_ - 1) (hash k &&& (m.capacity_ - 1)) 0
          = hash k &&& (m.capacity_ - 1) from rfl] at h0
      rw [hw, hw0] at hst
      rw [hst] at h0
      simp at h0
  exact ⟨t, htlt, hw, hst, hfirst⟩

theorem seek_some_lt {hash : Nat → Nat} {m : Hash_map} {k r n : Nat}
    (hc : m.capacity_ = 2 ^ n) (h : seek hash m k = some r) : r < m.capacity_ := by
  obtain ⟨t, _, hw, _, _⟩ := seek_some_spec hc h
  rw [hw]
  apply walk_lt hc
  rw [hc, Nat.and_pow_two_sub_one_eq_mod]
  exact Nat.mod_lt _ (Nat.two_pow_pos n)

theorem seek_isSome_of_stop {hash : Nat → Nat} {m : Hash_map} {k : Nat} {n : Nat}
    (hc : m.capacity_ = 2 ^ n)
    (h : ∃ i, i < m.capacity_ ∧ seek_stop m k i = true) :
    (seek hash m k).isSome := by
  have hcap0 : m.capacity_ ≠ 0 := by rw [hc]; exact (Nat.two_pow_pos n).ne'
  obtain ⟨i, hi, hstop⟩ := h
  have hs : hash k &&& (m.capacity_ - 1) < m.capacity_ := by
    rw [hc, Nat.and_pow_two_sub_one_eq_mod]
    exact Nat.mod_lt _ (Nat.two_pow_pos n)
  have hw : walk (m.capacity_ - 1) (hash k &&& (m.capacity_ - 1))
      (dist m.capacity_ (hash k &&& (m.capacity_ - 1)) i) = i := walk_dist hc hs hi
  rw [seek, keep_bits_eq hcap0]
  apply probe_isSome (t := dist m.capacity_ (hash k &&& (m.capacity_ - 1)) i)
  · have := dist_lt (Nat.pos_of_ne_zero hcap0) (hash k &&& (m.capacity_ - 1)) i
    omega
  · rw [hw]; exact hstop

end Hash_map
end dsa

namespace dsa
namespace Hash_map

/-! ### The probe-chain invariant -/

theorem stop_on_false_iff {keys : List Nat} {marks : List Mark} {k i : Nat} :
    stop_on keys marks k i = false ↔
      keys.getD i 0 ≠ k ∧ marks.getD i Mark.null ≠ Mark.null := by
  simp [stop_on]

theorem mask_lt {cap n : Nat} (hc : cap = 2 ^ n) (x : Nat) : x &&& (cap - 1) < cap := by
  rw [hc, Nat.and_pow_two_sub_one_eq_mod]
  exact Nat.mod_lt _ (Nat.two_pow_pos n)

theorem chain_on_transfer {hash : Nat → Nat} {cap n : Nat} {keys keys' : List Nat}
    {marks marks' : List Mark} (hc : cap = 2 ^ n)
    (hk : ∀ j, j < cap → keys'.getD j 0 = keys.getD j 0)
    (hm : ∀ j, j < cap →
      (marks'.getD j Mark.null = Mark.null ↔ marks.getD j Mark.null = Mark.null))
    (h : chain_on hash cap keys marks) : chain_on hash cap keys' marks' := by
  intro i hi hmark t ht
  have hki : keys'.getD i 0 = keys.getD i 0 := hk i hi
  have hmi : marks.getD i Mark.null ≠ Mark.null := fun hnull => hmark ((hm i hi).mpr hnull)
  rw [hki] at ht ⊢
  have hold := h i hi hmi t ht
  have hjlt : walk (cap - 1) (hash (keys.getD i 0) &&& (cap - 1)) t < cap :=
    walk_lt hc (mask_lt hc _) t
  rw [stop_on_false_iff] at hold ⊢
  exact ⟨by rw [hk _ hjlt]; exact hold.1, fun hnull => hold.2 ((hm _ hjlt).mp hnull)⟩

theorem chain_on_distinct {hash : Nat → Nat} {cap n : Nat} {keys : List Nat}
    {marks : List Mark} (hc : cap = 2 ^ n) (hch : chain_on hash cap keys marks)
    {i j : Nat} (hi : i < cap) (hj : j < cap)
    (hmi : marks.getD i Mark.null ≠ Mark.null)
    (hmj : marks.getD j Mark.null ≠ Mark.null) (hne : i ≠ j) :
    keys.getD i 0 ≠ keys.getD j 0 := by
  intro heq
  have hstart : hash (keys.getD i 0) &&& (cap - 1) < cap := mask_lt hc _
  have hwi : walk (cap - 1) (hash (keys.getD i 0) &&& (cap - 1))
      (dist cap (hash (keys.getD i 0) &&& (cap - 1)) i) = i := walk_dist hc hstart hi
  have hwj : walk (cap - 1) (hash (keys.getD i 0) &&& (cap - 1))
      (dist cap (hash (keys.getD i 0) &&& (cap - 1)) j) = j := walk_dist hc hstart hj
  rcases Nat.lt_or_ge (dist cap (hash (keys.getD i 0) &&& (cap - 1)) i)
      (dist cap (hash (keys.getD i 0) &&& (cap - 1)) j) with hlt | hge
  · have hch' := hch j hj hmj
    rw [← heq] at hch'
    have hstop := hch' _ hlt
    rw [hwi, stop_on_false_iff] at hstop
    exact hstop.1 rfl
  · have hdne : dist cap (hash (keys.getD i 0) &&& (cap - 1)) i ≠
        dist cap (hash (keys.getD i 0) &&& (cap - 1)) j := by
      intro hd
      exact hne (by rw [← hwi, ← hwj, hd])
    have hlt : dist cap (hash (keys.getD i 0) &&& (cap - 1)) j <
        dist cap (hash (keys.getD i 0) &&& (cap - 1)) i := by omega
    have hstop := hch i hi hmi _ hlt
    rw [hwj, stop_on_false_iff] at hstop
    exact hstop.1 heq.symm

theorem chain_insert {hash : Nat → Nat} {m : Hash_map} {k index n : Nat}
    (hInv : Inv hash m) (hc : m.capacity_ = 2 ^ n)
    (hseek : seek hash m k = some index)
    (hnull : m.marks_.getD index Mark.null = Mark.null) :
    chain_on hash m.capacity_ (m.keys_.set index k) (m.marks_.set index Mark.live) := by
  have hstart : hash k &&& (m.capacity_ - 1) < m.capacity_ := mask_lt hc _
  obtain ⟨tr, htr, hw, hst, hfirst⟩ := seek_some_spec hc hseek
  have hindexlt : index < m.capacity_ := seek_some_lt hc hseek
  have hindexlen : index < m.keys_.length := by rw [hInv.len_keys]; exact hindexlt
  have hindexlenm : index < m.marks_.length := by rw [hInv.len_marks]; exact hindexlt
  intro i hi hmark t ht
  by_cases hieq : i = index
  · subst hieq
    rw [getD_set_self hindexlen] at ht ⊢
    have hdist : dist m.capacity_ (hash k &&& (m.capacity_ - 1)) i = tr := by
      rw [hw]
      exact dist_walk hc hstart htr
    rw [hdist] at ht
    have hstop := hfirst t ht
    rw [seek_stop, stop_on_false_iff] at hstop
    have hjne : i ≠ walk (m.capacity_ - 1) (hash k &&& (m.capacity_ - 1)) t := by
      intro hej
      have heq : t = tr := by
        apply walk_inj hc hstart (by omega) htr
        rw [← hej, ← hw]
      omega
    rw [stop_on_false_iff, getD_set_ne hjne, getD_set_ne hjne]
    exact hstop
  · have hne' : index ≠ i := fun hh => hieq hh.symm
    have hmi : m.marks_.getD i Mark.null ≠ Mark.null := by
      rwa [getD_set_ne hne'] at hmark
    rw [getD_set_ne hne'] at ht ⊢
    have hchain := hInv.chain i hi hmi t ht
    rw [stop_on_false_iff] at hchain
    have hjne : index ≠ walk (m.capacity_ - 1)
        (hash (m.keys_.getD i 0) &&& (m.capacity_ - 1)) t := by
      intro hej
      exact hchain.2 (by rw [← hej]; exact hnull)
    rw [stop_on_false_iff, getD_set_ne hjne, getD_set_ne hjne]
    exact hchain

end Hash_map
end dsa

namespace dsa
namespace Hash_map

/-! ### Growth: the reinsertion loop re-establishes the chain invariant -/

theorem rehash_zero {hash : Nat → Nat} {m : Hash_map} {kb : Nat} :
    ∀ (idxs : List Nat) (tk tv : List Nat) (tm : List Mark)
      (out : List Nat × List Nat × List Mark),
      rehash hash m 0 kb idxs tk tv tm = some out → out = (tk, tv, tm) := by
  intro idxs
  induction idxs with
  | nil =>
    intro tk tv tm out h
    simp only [rehash] at h
    exact (Option.some_injective _ h).symm
  | cons i rest ih =>
    intro tk tv tm out h
    simp only [rehash] at h
    by_cases hlive : m.marks_.getD i Mark.null = Mark.live
    · rw [if_pos hlive] at h
      simp only [probe] at h
      exact absurd h (by simp)
    · rw [if_neg hlive] at h
      exact ih tk tv tm out h

theorem rehash_chain {hash : Nat → Nat} {m : Hash_map} {tc kb nn : Nat}
    (hc : tc = 2 ^ nn) (hkb : kb = tc - 1)
    (hdistinct : ∀ i j, i < m.capacity_ → j < m.capacity_ →
      m.marks_.getD i Mark.null = Mark.live → m.marks_.getD j Mark.null = Mark.live →
      i ≠ j → m.keys_.getD i 0 ≠ m.keys_.getD j 0) :
    ∀ (idxs : List Nat) (tk tv : List Nat) (tm : List Mark)
      (out : List Nat × List Nat × List Mark),
      idxs.Nodup → (∀ i, i ∈ idxs → i < m.capacity_) →
      tk.length = tc → tv.length = tc → tm.length = tc →
      chain_on hash tc tk tm →
      (∀ j, j < tc → tm.getD j Mark.null ≠ Mark.null →
        ∃ i, i < m.capacity_ ∧ i ∉ idxs ∧ m.marks_.getD i Mark.null = Mark.live ∧
          tk.getD j 0 = m.keys_.getD i 0) →
      rehash hash m tc kb idxs tk tv tm = some out →
      out.1.length = tc ∧ out.2.1.length = tc ∧ out.2.2.length = tc ∧
        chain_on hash tc out.1 out.2.2 := by
  subst hkb
  intro idxs
  induction idxs with
  | nil =>
    intro tk tv tm out _ _ hlk hlv hlm hch _ hreh
    simp only [rehash] at hreh
    have := (Option.some_injective _ hreh).symm
    subst this
    exact ⟨hlk, hlv, hlm, hch⟩
  | cons i rest ih =>
    intro tk tv tm out hnd hbnd hlk hlv hlm hch hsrc hreh
    have hnd' := List.nodup_cons.mp hnd
    simp only [rehash] at hreh
    by_cases hlive : m.marks_.getD i Mark.null = Mark.live
    · rw [if_pos hlive] at hreh
      cases hpr : probe (fun j => decide (tm.getD j Mark.null = Mark.null)) (tc - 1) tc
          (hash (m.keys_.getD i 0) &&& (tc - 1)) with
      | none => rw [hpr] at hreh; exact absurd hreh (by simp)
      | some r =>
        rw [hpr] at hreh
        have hstart : hash (m.keys_.getD i 0) &&& (tc - 1) < tc := mask_lt hc _
        obtain ⟨tr, htr, hw, hst, hfirst⟩ := probe_some_spec hpr
        have hrlt : r < tc := by rw [hw]; exact walk_lt hc hstart tr
        have hrlen : r < tk.length := by omega
        have hrlenm : r < tm.length := by omega
        have hrnull : tm.getD r Mark.null = Mark.null := by
          have := hst
          simpa using this
        have hinotrest : i ∉ rest := hnd'.1
        have hibnd : i < m.capacity_ := hbnd i (List.mem_cons_self i rest)
        -- the new key is distinct from every key already placed
        have hfresh : ∀ w, w < tc → tm.getD w Mark.null ≠ Mark.null →
            tk.getD w 0 ≠ m.keys_.getD i 0 := by
          intro w hwlt hwnn
          obtain ⟨i', hi', hni', hlive', hkey'⟩ := hsrc w hwlt hwnn
          have hne : i' ≠ i := fun hh => hni' (hh ▸ List.mem_cons_self i rest)
          rw [hkey']
          exact hdistinct i' i hi' hibnd hlive' hlive hne
        -- chain invariant after this placement
        have hch' : chain_on hash tc (tk.set r (m.keys_.getD i 0)) (tm.set r Mark.live) := by
          intro j0 hj0 hm0 t ht
          by_cases hjr : j0 = r
          · subst hjr
            rw [getD_set_self hrlen] at ht ⊢
            have hdistr : dist tc (hash (m.keys_.getD i 0) &&& (tc - 1)) j0 = tr := by
              rw [hw]
              exact dist_walk hc hstart htr
            rw [hdistr] at ht
            have hwt : walk (tc - 1) (hash (m.keys_.getD i 0) &&& (tc - 1)) t < tc :=
              walk_lt hc hstart t
            have hstop := hfirst t ht
            have hwnn : tm.getD (walk (tc - 1)
                (hash (m.keys_.getD i 0) &&& (tc - 1)) t) Mark.null ≠ Mark.null := by
              simpa using hstop
            have hjne : j0 ≠ walk (tc - 1) (hash (m.keys_.getD i 0) &&& (tc - 1)) t := by
              intro hej
              have heqt : t = tr := by
                apply walk_inj hc hstart (by omega) htr
                rw [← hej, ← hw]
              omega
            rw [stop_on_false_iff, getD_set_ne hjne, getD_set_ne hjne]
            exact ⟨hfresh _ hwt hwnn, hwnn⟩
          · have hne' : r ≠ j0 := fun hh => hjr hh.symm
            have hmj0 : tm.getD j0 Mark.null ≠ Mark.null := by
              rwa [getD_set_ne hne'] at hm0
            rw [getD_set_ne hne'] at ht ⊢
            have hchain := hch j0 hj0 hmj0 t ht
            rw [stop_on_false_iff] at hchain
            have hjne : r ≠ walk (tc - 1) (hash (tk.getD j0 0) &&& (tc - 1)) t := by
              intro hej
              exact hchain.2 (by rw [← hej]; exact hrnull)
            rw [stop_on_false_iff, getD_set_ne hjne, getD_set_ne hjne]
            exact hchain
        -- placement bookkeeping after this placement
        have hsrc' : ∀ j, j < tc → (tm.set r Mark.live).getD j Mark.null ≠ Mark.null →
            ∃ i', i' < m.capacity_ ∧ i' ∉ rest ∧ m.marks_.getD i' Mark.null = Mark.live ∧
              (tk.set r (m.keys_.getD i 0)).getD j 0 = m.keys_.getD i' 0 := by
          intro j hjlt hjnn
          by_cases hjr : j = r
          · subst hjr
            exact ⟨i, hibnd, hinotrest, hlive, getD_set_self hrlen⟩
          · have hne' : r ≠ j := fun hh => hjr hh.symm
            rw [getD_set_ne hne'] at hjnn
            obtain ⟨i', hi', hni', hlive', hkey'⟩ := hsrc j hjlt hjnn
            refine ⟨i', hi', fun hmem => hni' (List.mem_cons_of_mem _ hmem), hlive', ?_⟩
            rw [getD_set_ne hne']
            exact hkey'
        exact ih _ _ _ out hnd'.2 (fun j hj => hbnd j (List.mem_cons_of_mem _ hj))
          (by simp [hlk]) (by simp [hlv]) (by simp [hlm]) hch' hsrc' hreh
    · rw [if_neg hlive] at hreh
      refine ih _ _ _ out hnd'.2 (fun j hj => hbnd j (List.mem_cons_of_mem _ hj))
        hlk hlv hlm hch ?_ hreh
      intro j hjlt hjnn
      obtain ⟨i', hi', hni', hlive', hkey'⟩ := hsrc j hjlt hjnn
      exact ⟨i', hi', fun hmem => hni' (List.mem_cons_of_mem _ hmem), hlive', hkey'⟩

end Hash_map
end dsa

namespace dsa
namespace Hash_map

/-! ### The invariant is preserved by every terminating operation -/

theorem qtrunc_zero : qtrunc 0 = 0 := by simp [qtrunc]

theorem Inv_construct (hash : Nat → Nat) (sz : Nat) (mlf : ℚ) :
    Inv hash (construct sz mlf) := by
  obtain ⟨n, hn⟩ := normalize_capacity_pow sz
  refine ⟨Or.inr ⟨n, hn⟩, ?_, ?_, ?_, ?_, ?_⟩
  · simp [construct]
  · simp [construct]
  · simp [construct]
  · intro hcap0
    rw [show (construct sz mlf).capacity_ = normalize_capacity sz from rfl] at hcap0
    rw [hn] at hcap0
    exact absurd hcap0 (Nat.two_pow_pos n).ne'
  · intro i hi hmark
    exfalso
    apply hmark
    rw [show (construct sz mlf).marks_ = List.replicate (normalize_capacity sz) Mark.null
      from rfl]
    exact getD_replicate_lt hi

theorem Inv_subscript {hash : Nat → Nat} {m m' : Hash_map} {k r : Nat}
    (hInv : Inv hash m) (h : subscript hash m k = some (m', r)) : Inv hash m' := by
  cases hs : seek hash m k with
  | none =>
    simp only [subscript, hs] at h
    exact absurd h (by simp)
  | some index =>
    simp only [subscript, hs] at h
    by_cases hnull : m.marks_.getD index Mark.null = Mark.null
    · rw [if_pos hnull] at h
      by_cases hge : m.size_ ≥ m.threshold_size_
      · rw [if_pos hge] at h
        exact absurd h (by simp)
      · rw [if_neg hge] at h
        simp only [Option.some.injEq, Prod.mk.injEq] at h
        obtain hcap0 | ⟨n, hc⟩ := hInv.cap_pow
        · exfalso
          obtain ⟨hsz, hthr⟩ := hInv.zero_state hcap0
          omega
        · rw [← h.1]
          refine ⟨Or.inr ⟨n, hc⟩, ?_, hInv.len_values, ?_, ?_, ?_⟩
          · simpa using hInv.len_keys
          · simpa using hInv.len_marks
          · intro hcap0
            exact absurd (hc ▸ hcap0) (Nat.two_pow_pos n).ne'
          · exact chain_insert hInv hc hs hnull
    · rw [if_neg hnull] at h
      simp only [Option.some.injEq, Prod.mk.injEq] at h
      rw [← h.1]
      exact hInv

theorem Inv_values_set {hash : Nat → Nat} {m : Hash_map} (hInv : Inv hash m) (r v : Nat) :
    Inv hash { m with values_ := m.values_.set r v } :=
  ⟨hInv.cap_pow, hInv.len_keys, by simpa using hInv.len_values, hInv.len_marks,
    hInv.zero_state, hInv.chain⟩

theorem Inv_insert {hash : Nat → Nat} {m m' : Hash_map} {k v : Nat}
    (hInv : Inv hash m) (h : insert hash m k v = some m') : Inv hash m' := by
  cases hs : subscript hash m k with
  | none =>
    simp only [insert, hs, Option.map_none'] at h
    exact absurd h (by simp)
  | some p =>
    simp only [insert, hs, Option.map_some', Option.some.injEq] at h
    rw [← h]
    exact Inv_values_set (Inv_subscript hInv hs) p.2 v

theorem Inv_remove {hash : Nat → Nat} {m m' : Hash_map} {k : Nat}
    (hInv : Inv hash m) (h : remove hash m k = some m') : Inv hash m' := by
  cases hs : seek hash m k with
  | none =>
    simp only [remove, hs, Option.map_none'] at h
    exact absurd h (by simp)
  | some index =>
    simp only [remove, hs, Option.map_some', Option.some.injEq] at h
    by_cases hlive : m.marks_.getD index Mark.null = Mark.live
    · rw [if_pos hlive] at h
      obtain hcap0 | ⟨n, hc⟩ := hInv.cap_pow
      · exfalso
        have hlen0 : m.marks_.length = 0 := by rw [hInv.len_marks, hcap0]
        have hnil : m.marks_ = [] := List.length_eq_zero.mp hlen0
        rw [hnil] at hlive
        simp [List.getD_nil] at hlive
      · have hindexlt : index < m.capacity_ := seek_some_lt hc hs
        have hindexlen : index < m.marks_.length := by rw [hInv.len_marks]; exact hindexlt
        rw [← h]
        refine ⟨Or.inr ⟨n, hc⟩, hInv.len_keys, hInv.len_values, ?_, ?_, ?_⟩
        · simpa using hInv.len_marks
        · intro hcap0
          exact absurd (hc ▸ hcap0) (Nat.two_pow_pos n).ne'
        · apply chain_on_transfer hc (fun j _ => rfl) _ hInv.chain
          intro j hjlt
          by_cases hje : index = j
          · subst hje
            rw [getD_set_self hindexlen, hlive]
            constructor
            · intro hd; exact absurd hd (by decide)
            · intro hl; exact absurd hl (by decide)
          · rw [getD_set_ne hje]
    · rw [if_neg hlive] at h
      rw [← h]
      exact hInv

theorem Inv_increase {hash : Nat → Nat} {m m' : Hash_map}
    (hInv : Inv hash m) (h : increase_capacity hash m = some m') : Inv hash m' := by
  simp only [increase_capacity] at h
  set tc := if m.capacity_ = 0 then 4 else (2 * m.capacity_) % 2 ^ 64 with htcdef
  have hdistinct : ∀ i j, i < m.capacity_ → j < m.capacity_ →
      m.marks_.getD i Mark.null = Mark.live → m.marks_.getD j Mark.null = Mark.live →
      i ≠ j → m.keys_.getD i 0 ≠ m.keys_.getD j 0 := by
    intro i j hi hj hli hlj hne
    obtain hcap0 | ⟨n, hc⟩ := hInv.cap_pow
    · omega
    · exact chain_on_distinct hc hInv.chain hi hj
        (by rw [hli]; decide) (by rw [hlj]; decide) hne
  cases hreh : rehash hash m tc (if tc = 0 then 2 ^ 64 - 1 else tc - 1)
      (List.range m.capacity_) (List.replicate tc 0) (List.replicate tc 0)
      (List.replicate tc Mark.null) with
  | none =>
    rw [hreh] at h
    exact absurd h (by simp)
  | some out =>
    rw [hreh] at h
    obtain ⟨tk, tv, tm⟩ := out
    have h2 :
        ({ size_ := 0, capacity_ := tc, keys_ := tk, values_ := tv, marks_ := tm,
           max_load_factor_ := 0, threshold_size_ := 0 } : Hash_map) = m' :=
      Option.some_injective _ h
    subst h2
    by_cases htc0 : tc = 0
    · rw [htc0] at hreh
      have hout := rehash_zero _ _ _ _ _ hreh
      have h1 : tk = List.replicate 0 0 := congrArg (fun p => p.1) hout
      have h3 : tm = List.replicate 0 Mark.null := congrArg (fun p => p.2.2) hout
      have h4 : tv = List.replicate 0 0 := congrArg (fun p => p.2.1) hout
      refine ⟨Or.inl htc0, ?_, ?_, ?_, fun _ => ⟨rfl, rfl⟩, ?_⟩
      · show tk.length = tc
        rw [h1, htc0]
        rfl
      · show tv.length = tc
        rw [h4, htc0]
        rfl
      · show tm.length = tc
        rw [h3, htc0]
        rfl
      · show chain_on hash tc tk tm
        intro i hi
        rw [htc0] at hi
        omega
    · have htcpow : ∃ nn, tc = 2 ^ nn := by
        obtain hcap0 | ⟨n, hc⟩ := hInv.cap_pow
        · exact ⟨2, by rw [htcdef, if_pos hcap0]; rfl⟩
        · have hcapne : m.capacity_ ≠ 0 := by rw [hc]; exact (Nat.two_pow_pos n).ne'
          rcases pow_double_mod n with h0 | hj
          · exfalso
            apply htc0
            rw [htcdef, if_neg hcapne, hc]
            exact h0
          · rw [htcdef, if_neg hcapne, hc]
            exact hj
      obtain ⟨nn, htc⟩ := htcpow
      rw [if_neg htc0] at hreh
      have hres := rehash_chain htc rfl hdistinct (List.range m.capacity_) _ _ _ _
        (List.nodup_range _) (fun i hi => List.mem_range.mp hi)
        (List.length_replicate _ _) (List.length_replicate _ _) (List.length_replicate _ _)
        (by
          intro i hi hmark
          exact absurd (getD_replicate_lt hi) hmark)
        (by
          intro j hjlt hjnn
          exact absurd (getD_replicate_lt hjlt) hjnn)
        hreh
      refine ⟨Or.inr ⟨nn, htc⟩, ?_, ?_, ?_, fun _ => ⟨rfl, rfl⟩, ?_⟩
      · show tk.length = tc
        exact hres.1
      · show tv.length = tc
        exact hres.2.1
      · show tm.length = tc
        exact hres.2.2.1
      · show chain_on hash tc tk tm
        exact hres.2.2.2

theorem Inv_set_mlf {hash : Nat → Nat} {m m' : Hash_map} {x : ℚ}
    (hInv : Inv hash m) (h : set_max_load_factor hash m x = some m') : Inv hash m' := by
  simp only [set_max_load_factor] at h
  have hmid :
      Inv hash { m with max_load_factor_ := normalize_maxlf x,
                        threshold_size_ := qtrunc (normalize_maxlf x * m.capacity_) } := by
    refine ⟨hInv.cap_pow, hInv.len_keys, hInv.len_values, hInv.len_marks, ?_, hInv.chain⟩
    intro hcap0
    refine ⟨(hInv.zero_state hcap0).1, ?_⟩
    show qtrunc (normalize_maxlf x * (m.capacity_ : ℚ)) = 0
    rw [hcap0]
    simpa using qtrunc_zero
  by_cases hge : m.size_ ≥ qtrunc (normalize_maxlf x * m.capacity_)
  · rw [if_pos hge] at h
    exact Inv_increase hmid h
  · rw [if_neg hge] at h
    rw [← Option.some_injective _ h]
    exact hmid

theorem Inv_clear (hash : Nat → Nat) (m : Hash_map) : Inv hash (clear m) := by
  refine ⟨Or.inl rfl, rfl, rfl, rfl, fun _ => ⟨rfl, rfl⟩, ?_⟩
  intro i hi
  exact absurd hi (by simp [clear])

theorem Inv_copy {hash : Nat → Nat} {m : Hash_map} (hInv : Inv hash m) :
    Inv hash (copy_ctor m) := by
  refine ⟨hInv.cap_pow, by simp [copy_ctor], by simp [copy_ctor], by simp [copy_ctor],
    ?_, ?_⟩
  · intro hcap0
    rw [show (copy_ctor m).capacity_ = m.capacity_ from rfl] at hcap0
    refine ⟨(hInv.zero_state hcap0).1, ?_⟩
    show qtrunc (m.max_load_factor_ * (m.capacity_ : ℚ)) = 0
    rw [hcap0]
    simpa using qtrunc_zero
  · obtain hcap0 | ⟨n, hc⟩ := hInv.cap_pow
    · intro i hi
      rw [show (copy_ctor m).capacity_ = m.capacity_ from rfl, hcap0] at hi
      omega
    · show chain_on hash m.capacity_ (copy_ctor m).keys_ (copy_ctor m).marks_
      apply chain_on_transfer hc _ _ hInv.chain
      · intro j hjlt
        exact getD_map_range hjlt
      · intro j hjlt
        rw [show (copy_ctor m).marks_
            = (List.range m.capacity_).map (fun i => m.marks_.getD i Mark.null) from rfl,
          getD_map_range hjlt]

theorem Inv_assign {hash : Nat → Nat} {m : Hash_map} (hInv : Inv hash m) :
    Inv hash (assign m) := by
  refine ⟨hInv.cap_pow, by simp [assign], by simp [assign], by simp [assign], ?_, ?_⟩
  · intro hcap0
    rw [show (assign m).capacity_ = m.capacity_ from rfl] at hcap0
    exact hInv.zero_state hcap0
  · obtain hcap0 | ⟨n, hc⟩ := hInv.cap_pow
    · intro i hi
      rw [show (assign m).capacity_ = m.capacity_ from rfl, hcap0] at hi
      omega
    · show chain_on hash m.capacity_ (assign m).keys_ (assign m).marks_
      apply chain_on_transfer hc _ _ hInv.chain
      · intro j hjlt
        exact getD_map_range hjlt
      · intro j hjlt
        rw [show (assign m).marks_
            = (List.range m.capacity_).map (fun i => m.marks_.getD i Mark.null) from rfl,
          getD_map_range hjlt]

theorem Inv_reachable {hash : Nat → Nat} {m : Hash_map} (h : Reachable hash m) :
    Inv hash m := by
  induction h with
  | construct sz mlf _ => exact Inv_construct hash sz mlf
  | subscript_step k r _ hstep ih => exact Inv_subscript ih hstep
  | insert_step k v _ hstep ih => exact Inv_insert ih hstep
  | remove_step k _ hstep ih => exact Inv_remove ih hstep
  | set_mlf_step x _ hstep ih => exact Inv_set_mlf ih hstep
  | clear_step _ ih => exact Inv_clear hash _
  | copy_step _ ih => exact Inv_copy ih
  | assign_step _ ih => exact Inv_assign ih

end Hash_map
end dsa

namespace dsa
namespace Hash_map

/-! ### The growth-free size/threshold accounting -/

theorem getD_eq_getElem {α : Type} {l : List α} {i : Nat} {d : α} (h : i < l.length) :
    l.getD i d = l[i] := by
  simp [List.getD_eq_getElem?_getD, List.getElem?_eq_getElem h]

theorem countP_replicate {α : Type} (p : α → Bool) (a : α) :
    ∀ n, (List.replicate n a).countP p = if p a then n else 0 := by
  intro n
  induction n with
  | zero => simp
  | succ n ih =>
    rw [List.replicate_succ, List.countP_cons, ih]
    by_cases hp : p a
    · simp [hp]
    · simp [hp]

theorem map_range_getD {α : Type} (l : List α) (d : α) :
    (List.range l.length).map (fun i => l.getD i d) = l := by
  apply List.ext_getElem
  · simp
  · intro i h1 h2
    have hi : i < l.length := by simpa using h2
    simp only [List.getElem_map, List.getElem_range]
    exact getD_eq_getElem hi

theorem InvNG_construct (sz : Nat) (mlf : ℚ) (hs : sz < 2 ^ 31) :
    InvNG (construct sz mlf) := by
  refine ⟨Nat.zero_le _, rfl, ?_, ?_, normalize_capacity_le hs, ?_, normalize_maxlf_le mlf⟩
  · show (0 : Nat) = (List.replicate (normalize_capacity sz) Mark.null).countP _
    rw [countP_replicate]
    simp
  · simp [construct]
  · exact Or.inr (normalize_capacity_pow sz)

theorem InvNG_cap_ne_zero {m : Hash_map} (hInv : InvNG m)
    (hlt : m.size_ < m.threshold_size_) : ∃ n, m.capacity_ = 2 ^ n := by
  obtain hcap0 | hpow := hInv.cap_pow
  · exfalso
    have hthr : m.threshold_size_ = 0 := by
      rw [hInv.thr_eq, hcap0]
      simpa using qtrunc_zero
    omega
  · exact hpow

theorem InvNG_subscript {hash : Nat → Nat} {m m' : Hash_map} {k r : Nat}
    (hInv : InvNG m) (h : subscript hash m k = some (m', r)) : InvNG m' := by
  cases hs : seek hash m k with
  | none =>
    simp only [subscript, hs] at h
    exact absurd h (by simp)
  | some index =>
    simp only [subscript, hs] at h
    by_cases hnull : m.marks_.getD index Mark.null = Mark.null
    · rw [if_pos hnull] at h
      by_cases hge : m.size_ ≥ m.threshold_size_
      · rw [if_pos hge] at h
        exact absurd h (by simp)
      · rw [if_neg hge] at h
        simp only [Option.some.injEq, Prod.mk.injEq] at h
        have hlt : m.size_ < m.threshold_size_ := by omega
        obtain ⟨n, hc⟩ := InvNG_cap_ne_zero hInv hlt
        have hindexlt : index < m.capacity_ := seek_some_lt hc hs
        have hindexlen : index < m.marks_.length := by rw [hInv.len_marks]; exact hindexlt
        have hthrcap : m.threshold_size_ ≤ m.capacity_ := by
          rw [hInv.thr_eq]
          exact qtrunc_mul_le hInv.maxlf_le
        have hsz64 : m.size_ + 1 < 2 ^ 64 := by
          have := hInv.cap_le
          omega
        have hsizemod : (m.size_ + 1) % 2 ^ 64 = m.size_ + 1 := Nat.mod_eq_of_lt hsz64
        rw [← h.1]
        refine ⟨?_, hInv.thr_eq, ?_, ?_, hInv.cap_le, hInv.cap_pow, hInv.maxlf_le⟩
        · show (m.size_ + 1) % 2 ^ 64 ≤ m.threshold_size_
          omega
        · show (m.size_ + 1) % 2 ^ 64
            = (m.marks_.set index Mark.live).countP (fun mk => decide (mk = Mark.live))
          rw [hsizemod, List.countP_set _ _ _ _ hindexlen]
          rw [← getD_eq_getElem hindexlen, hnull]
          rw [hInv.size_live]
          simp
        · show (m.marks_.set index Mark.live).length = m.capacity_
          simpa using hInv.len_marks
    · rw [if_neg hnull] at h
      simp only [Option.some.injEq, Prod.mk.injEq] at h
      rw [← h.1]
      exact hInv

theorem InvNG_values_set {m : Hash_map} (hInv : InvNG m) (r v : Nat) :
    InvNG { m with values_ := m.values_.set r v } :=
  ⟨hInv.size_le, hInv.thr_eq, hInv.size_live, hInv.len_marks, hInv.cap_le,
    hInv.cap_pow, hInv.maxlf_le⟩

theorem InvNG_insert {hash : Nat → Nat} {m m' : Hash_map} {k v : Nat}
    (hInv : InvNG m) (h : insert hash m k v = some m') : InvNG m' := by
  cases hs : subscript hash m k with
  | none =>
    simp only [insert, hs, Option.map_none'] at h
    exact absurd h (by simp)
  | some p =>
    simp only [insert, hs, Option.map_some', Option.some.injEq] at h
    rw [← h]
    exact InvNG_values_set (InvNG_subscript hInv hs) p.2 v

theorem InvNG_remove {hash : Nat → Nat} {m m' : Hash_map} {k : Nat}
    (hInv : InvNG m) (h : remove hash m k = some m') : InvNG m' := by
  cases hs : seek hash m k with
  | none =>
    simp only [remove, hs, Option.map_none'] at h
    exact absurd h (by simp)
  | some index =>
    simp only [remove, hs, Option.map_some', Option.some.injEq] at h
    by_cases hlive : m.marks_.getD index Mark.null = Mark.live
    · rw [if_pos hlive] at h
      obtain hcap0 | ⟨n, hc⟩ := hInv.cap_pow
      · exfalso
        have hlen0 : m.marks_.length = 0 := by rw [hInv.len_marks, hcap0]
        have hnil : m.marks_ = [] := List.length_eq_zero.mp hlen0
        rw [hnil] at hlive
        simp [List.getD_nil] at hlive
      · have hindexlt : index < m.capacity_ := seek_some_lt hc hs
        have hindexlen : index < m.marks_.length := by rw [hInv.len_marks]; exact hindexlt
        have hmem : Mark.live ∈ m.marks_ := by
          have hx := List.getElem_mem hindexlen
          rwa [← getD_eq_getElem (d := Mark.null) hindexlen, hlive] at hx
        have hpos : 0 < m.size_ := by
          rw [hInv.size_live]
          rw [List.countP_pos_iff]
          exact ⟨Mark.live, hmem, by simp⟩
        have hsz64 : m.size_ < 2 ^ 64 := by
          have h1 := hInv.size_le
          have h2 : m.threshold_size_ ≤ m.capacity_ := by
            rw [hInv.thr_eq]
            exact qtrunc_mul_le hInv.maxlf_le
          have := hInv.cap_le
          omega
        have hsizemod : (m.size_ + (2 ^ 64 - 1)) % 2 ^ 64 = m.size_ - 1 := by
          omega
        rw [← h]
        refine ⟨?_, hInv.thr_eq, ?_, ?_, hInv.cap_le, hInv.cap_pow, hInv.maxlf_le⟩
        · show (m.size_ + (2 ^ 64 - 1)) % 2 ^ 64 ≤ m.threshold_size_
          have := hInv.size_le
          omega
        · show (m.size_ + (2 ^ 64 - 1)) % 2 ^ 64
            = (m.marks_.set index Mark.dead).countP (fun mk => decide (mk = Mark.live))
          rw [hsizemod, List.countP_set _ _ _ _ hindexlen]
          rw [← getD_eq_getElem hindexlen, hlive]
          rw [hInv.size_live]
          simp
        · show (m.marks_.set index Mark.dead).length = m.capacity_
          simpa using hInv.len_marks
    · rw [if_neg hlive] at h
      rw [← h]
      exact hInv

theorem InvNG_set_mlf_ng {m : Hash_map} {x : ℚ} (hInv : InvNG m)
    (hng : m.size_ < qtrunc (normalize_maxlf x * m.capacity_)) :
    InvNG { m with max_load_factor_ := normalize_maxlf x,
                   threshold_size_ := qtrunc (normalize_maxlf x * m.capacity_) } := by
  refine ⟨?_, rfl, hInv.size_live, hInv.len_marks, hInv.cap_le, hInv.cap_pow,
    normalize_maxlf_le x⟩
  show m.size_ ≤ qtrunc (normalize_maxlf x * m.capacity_)
  omega

theorem InvNG_clear (m : Hash_map) : InvNG (clear m) := by
  refine ⟨Nat.le_refl 0, ?_, rfl, rfl, Nat.zero_le _, Or.inl rfl, ?_⟩
  · show (0 : Nat) = qtrunc ((0 : ℚ) * ((0 : Nat) : ℚ))
    simp [qtrunc]
  · show (0 : ℚ) ≤ maxlf_max
    rw [maxlf_max]
    norm_num

theorem InvNG_copy {m : Hash_map} (hInv : InvNG m) : InvNG (copy_ctor m) := by
  have hmarks : (copy_ctor m).marks_ = m.marks_ := by
    show (List.range m.capacity_).map (fun i => m.marks_.getD i Mark.null) = m.marks_
    rw [← hInv.len_marks]
    exact map_range_getD m.marks_ Mark.null
  refine ⟨?_, rfl, ?_, ?_, hInv.cap_le, hInv.cap_pow, hInv.maxlf_le⟩
  · show m.size_ ≤ qtrunc (m.max_load_factor_ * m.capacity_)
    rw [← hInv.thr_eq]
    exact hInv.size_le
  · show m.size_ = (copy_ctor m).marks_.countP (fun mk => decide (mk = Mark.live))
    rw [hmarks]
    exact hInv.size_live
  · show (copy_ctor m).marks_.length = m.capacity_
    rw [hmarks]
    exact hInv.len_marks

theorem InvNG_assign {m : Hash_map} (hInv : InvNG m) : InvNG (assign m) := by
  have hmarks : (assign m).marks_ = m.marks_ := by
    show (List.range m.capacity_).map (fun i => m.marks_.getD i Mark.null) = m.marks_
    rw [← hInv.len_marks]
    exact map_range_getD m.marks_ Mark.null
  refine ⟨hInv.size_le, hInv.thr_eq, ?_, ?_, hInv.cap_le, hInv.cap_pow, hInv.maxlf_le⟩
  · show m.size_ = (assign m).marks_.countP (fun mk => decide (mk = Mark.live))
    rw [hmarks]
    exact hInv.size_live
  · show (assign m).marks_.length = m.capacity_
    rw [hmarks]
    exact hInv.len_marks

theorem InvNG_reachable {hash : Nat → Nat} {m : Hash_map} (h : ReachableNG hash m) :
    InvNG m := by
  induction h with
  | construct sz mlf hs => exact InvNG_construct sz mlf hs
  | subscript_step k r _ hstep ih => exact InvNG_subscript ih hstep
  | insert_step k v _ hstep ih => exact InvNG_insert ih hstep
  | remove_step k _ hstep ih => exact InvNG_remove ih hstep
  | set_mlf_ng_step x hng _ ih => exact InvNG_set_mlf_ng ih hng
  | clear_step _ ih => exact InvNG_clear _
  | copy_step _ ih => exact InvNG_copy ih
  | assign_step _ ih => exact InvNG_assign ih

end Hash_map
end dsa

namespace dsa
namespace Hash_map

/-! ### Helpers for the idempotence of `remove` -/

theorem getD_of_le {α : Type} {l : List α} {i : Nat} {d : α} (h : l.length ≤ i) :
    l.getD i d = d := by
  simp [List.getD_eq_getElem?_getD, List.getElem?_eq_none h]

theorem stop_on_set_dead {keys : List Nat} {marks : List Mark} {r k : Nat}
    (hlive : marks.getD r Mark.null = Mark.live) :
    stop_on keys (marks.set r Mark.dead) k = stop_on keys marks k := by
  have hr : r < marks.length := by
    by_contra hge
    rw [getD_of_le (by omega)] at hlive
    exact absurd hlive (by decide)
  funext i
  by_cases hir : r = i
  · subst hir
    rw [stop_on, stop_on, getD_set_self hr, hlive]
    simp
  · rw [stop_on, stop_on, getD_set_ne hir]

end Hash_map


namespace Hash_map

/-! ### Evaluation of the rational constants -/

theorem normalize_maxlf_34 : normalize_maxlf (3 / 4) = 3 / 4 := by
  rw [normalize_maxlf, if_neg (by rw [maxlf_min]; norm_num),
    if_neg (by rw [maxlf_max]; norm_num)]

theorem normalize_maxlf_120 : normalize_maxlf (1 / 20) = 1 / 5 := by
  rw [normalize_maxlf, if_pos (by rw [maxlf_min]; norm_num), maxlf_min]

theorem normalize_maxlf_910 : normalize_maxlf (9 / 10) = 3 / 4 := by
  rw [normalize_maxlf, if_neg (by rw [maxlf_min]; norm_num),
    if_pos (by rw [maxlf_max]; norm_num), maxlf_max]

theorem qtrunc_34_4 : qtrunc (3 / 4 * ((4 : Nat) : ℚ)) = 3 := by
  have h : (3 / 4 * ((4 : Nat) : ℚ)) = ((3 : ℤ) : ℚ) / ((1 : Nat) : ℚ) := by
    push_cast
    ring
  rw [qtrunc, h, Rat.floor_intCast_div_natCast]
  decide

theorem qtrunc_15_4 : qtrunc (1 / 5 * ((4 : Nat) : ℚ)) = 0 := by
  have h : (1 / 5 * ((4 : Nat) : ℚ)) = ((4 : ℤ) : ℚ) / ((5 : Nat) : ℚ) := by
    push_cast
    ring
  rw [qtrunc, h, Rat.floor_intCast_div_natCast]
  decide

theorem qtrunc_15_8 : qtrunc (1 / 5 * ((8 : Nat) : ℚ)) = 1 := by
  have h : (1 / 5 * ((8 : Nat) : ℚ)) = ((8 : ℤ) : ℚ) / ((5 : Nat) : ℚ) := by
    push_cast
    ring
  rw [qtrunc, h, Rat.floor_intCast_div_natCast]
  decide

end Hash_map

/-- The fresh default map evaluates to its slot-by-slot form. -/
theorem fresh_map_eq : fresh_map = fresh_lit := by
  simp only [fresh_map, Hash_map.construct]
  rw [show Hash_map.normalize_capacity 4 = 4 from by decide, Hash_map.normalize_maxlf_34,
    Hash_map.qtrunc_34_4]
  rfl

/-- The C4 witness map evaluates to its slot-by-slot form. -/
theorem c4_map_eq :
    c4_map = { size_ := 1, capacity_ := 4, keys_ := [0, 0, 0, 0],
               values_ := [0, 0, 0, 0],
               marks_ := [Mark.live, Mark.null, Mark.null, Mark.null],
               max_load_factor_ := 3 / 4, threshold_size_ := 3 } := by
  simp only [c4_map]
  rw [fresh_map_eq]
  rfl

/-- The C5 source map evaluates to its slot-by-slot form. -/
theorem c5_map_eq :
    c5_map = { size_ := 1, capacity_ := 4, keys_ := [0, 1, 0, 0],
               values_ := [0, 7, 0, 0],
               marks_ := [Mark.null, Mark.live, Mark.null, Mark.null],
               max_load_factor_ := 3 / 4, threshold_size_ := 3 } := by
  simp only [c5_map]
  rw [fresh_map_eq]
  rfl

end dsa

namespace dsa

/-! ### The claims -/

/-- C1 (code_bug): the spec's tombstone-reuse scenario — `insert(k, v1)`,
`remove(k)`, `insert(k, v2)` — should leave `contains(k)` true, `at(k) = v2`
and one live entry.  On the code, re-inserting over a matching Tombstone slot
writes the value but neither restores the Occupied mark nor re-increments
`size_`: after the run `contains(1)` is `false` and `size()` is `0`, while
`at(1)` does return 20. -/
theorem c1_tombstone_reinsert_behavior :
    (c1_run.bind fun s => Hash_map.contains id_hash s 1) = some false ∧
    c1_run.map Hash_map.size_ = some 0 ∧
    (c1_run.bind fun s => Hash_map.at_value id_hash s 1) = some 20 := by
  simp only [c1_run, fresh_map_eq]
  exact ⟨rfl, rfl, rfl⟩

theorem c2_step1 : Hash_map.insert id_hash fresh_map 1 7 = some c2_mid := by
  rw [fresh_map_eq]
  rfl

theorem c2_step2 :
    Hash_map.set_max_load_factor id_hash c2_mid (1 / 20) = some c2_final := by
  simp only [Hash_map.set_max_load_factor]
  rw [Hash_map.normalize_maxlf_120,
    show ((c2_mid.capacity_ : ℚ)) = ((4 : Nat) : ℚ) from rfl, Hash_map.qtrunc_15_4]
  rfl

theorem c2_run_eval : c2_run = some c2_final := by
  simp only [c2_run]
  rw [c2_step1]
  exact c2_step2

/-- C2 (corrected), counterexample: after the terminating mutating operation
`set_max_load_factor(0.05)` on a fresh map holding one entry, `size() <
threshold` is false (0 < 0 fails), and the stored threshold is 0 — not the
claim's `⌊clamped-factor × capacity⌋ = ⌊0.2 × 8⌋ = 1`. -/
theorem c2_growth_threshold_counterexample :
    c2_run.map (fun s => decide (s.size_ < s.threshold_size_)) = some false ∧
    c2_run.map Hash_map.threshold_size_ = some 0 ∧
    c2_run.map (fun s =>
      Hash_map.qtrunc (Hash_map.normalize_maxlf (1 / 20) * s.capacity_)) = some 1 := by
  rw [c2_run_eval]
  refine ⟨rfl, rfl, ?_⟩
  rw [Option.map_some', Hash_map.normalize_maxlf_120,
    show ((c2_final.capacity_ : ℚ)) = ((8 : Nat) : ℚ) from rfl, Hash_map.qtrunc_15_8]

theorem increase_capacity_zeroes {hash : Nat → Nat} {m m' : Hash_map}
    (h : Hash_map.increase_capacity hash m = some m') :
    m'.threshold_size_ = 0 ∧ m'.max_load_factor_ = 0 ∧ m'.size_ = 0 := by
  simp only [Hash_map.increase_capacity] at h
  cases hreh : Hash_map.rehash hash m
      (if m.capacity_ = 0 then 4 else (2 * m.capacity_) % 2 ^ 64)
      (if (if m.capacity_ = 0 then 4 else (2 * m.capacity_) % 2 ^ 64) = 0 then 2 ^ 64 - 1
        else (if m.capacity_ = 0 then 4 else (2 * m.capacity_) % 2 ^ 64) - 1)
      (List.range m.capacity_)
      (List.replicate (if m.capacity_ = 0 then 4 else (2 * m.capacity_) % 2 ^ 64) 0)
      (List.replicate (if m.capacity_ = 0 then 4 else (2 * m.capacity_) % 2 ^ 64) 0)
      (List.replicate (if m.capacity_ = 0 then 4 else (2 * m.capacity_) % 2 ^ 64) Mark.null)
      with
  | none =>
    rw [hreh] at h
    exact absurd h (by simp)
  | some out =>
    rw [hreh] at h
    obtain ⟨tk, tv, tm⟩ := out
    have h2 := Option.some_injective _ h
    rw [← h2]
    exact ⟨rfl, rfl, rfl⟩

/-- C2 (corrected), amended claim: in histories without a growth event, after
every terminating mutating operation `size() ≤ threshold` holds (the bound is
not strict: an insert may land with `size() = threshold`) and
`threshold = ⌊max_load_factor() × capacity()⌋` for the stored factor; a
growth event itself does not set `threshold` to the factor times the doubled
capacity — `increase_capacity` (via its internal `clear()`) leaves
`threshold_size_ = 0`, `max_load_factor_ = 0` and `size_ = 0`. -/
theorem c2_load_accounting_amended {hash : Nat → Nat} {m : Hash_map}
    (h : ReachableNG hash m) :
    (m.size_ ≤ m.threshold_size_ ∧
      m.threshold_size_ = Hash_map.qtrunc (m.max_load_factor_ * m.capacity_)) ∧
    ∀ m', Hash_map.increase_capacity hash m = some m' →
      m'.threshold_size_ = 0 ∧ m'.max_load_factor_ = 0 ∧ m'.size_ = 0 := by
  have hInv := Hash_map.InvNG_reachable h
  exact ⟨⟨hInv.size_le, hInv.thr_eq⟩, fun m' hm' => increase_capacity_zeroes hm'⟩

/-- Witness for C2's amended claim at the fresh default map. -/
theorem c2_load_accounting_amended_witness :
    fresh_map.size_ ≤ fresh_map.threshold_size_ ∧
    fresh_map.threshold_size_ =
      Hash_map.qtrunc (fresh_map.max_load_factor_ * fresh_map.capacity_) ∧
    (Hash_map.increase_capacity id_hash fresh_map).map Hash_map.threshold_size_ =
      some 0 := by
  have h := @c2_load_accounting_amended id_hash fresh_map
    (ReachableNG.construct 4 (3 / 4) (by norm_num))
  have hx : Hash_map.increase_capacity id_hash fresh_map = some grown_empty := by
    rw [fresh_map_eq]
    rfl
  refine ⟨h.1.1, h.1.2, ?_⟩
  rw [hx, Option.map_some', (h.2 _ hx).1]

/-- C3 (corrected), counterexample: on the concrete run of scenario 1 (three
distinct keys into `Hash_map(4, 0.75)`) the final capacity is 4, not the
claimed 8 — the growth check `size_ >= threshold_size_` compares the count
before the third entry lands (2 ≥ 3 is false), so no growth is triggered. -/
theorem c3_third_insert_counterexample :
    c3_run.map Hash_map.capacity_ = some 4 ∧
    c3_run.map Hash_map.capacity_ ≠ some 8 := by
  simp only [c3_run, fresh_map_eq]
  exact ⟨rfl, by decide⟩

/-- C3 (corrected), amended claim: construction with `(size=4,
max_load_factor=0.75)` gives `capacity() = 4` and `threshold = 3`; inserting
3 distinct keys triggers no growth — all three land, ending with
`size() = 3`, `capacity() = 4`, `threshold = 3`, and all three keys
contained. -/
theorem c3_concrete_run :
    fresh_map.capacity_ = 4 ∧ fresh_map.threshold_size_ = 3 ∧
    c3_run.map (fun s => (s.size_, s.capacity_, s.threshold_size_)) = some (3, 4, 3) ∧
    (c3_run.bind fun s => Hash_map.contains id_hash s 1) = some true ∧
    (c3_run.bind fun s => Hash_map.contains id_hash s 2) = some true ∧
    (c3_run.bind fun s => Hash_map.contains id_hash s 3) = some true := by
  simp only [c3_run, fresh_map_eq]
  exact ⟨rfl, rfl, rfl, rfl, rfl, rfl⟩

/-- C4 (corrected), counterexample: two fresh maps (trivially carrying the
same set of live associations — there are none, as the live count 0 shows)
compare unequal: the scan also looks up the placeholder key 0 of the Empty
slots in the other map and finds it not contained. -/
theorem c4_eq_counterexample :
    Hash_map.eq_op id_hash fresh_map fresh_map = some false ∧
    fresh_map.marks_.countP (fun mk => decide (mk = Mark.live)) = 0 := by
  rw [fresh_map_eq]
  exact ⟨rfl, rfl⟩

theorem eq_scan_sound {hash : Nat → Nat} {a b : Hash_map} :
    ∀ idxs, Hash_map.eq_scan hash a b idxs = some true →
      ∀ i ∈ idxs, Hash_map.contains hash b (a.keys_.getD i 0) = some true ∧
        Hash_map.value_at hash b (a.keys_.getD i 0) = some (a.values_.getD i 0) := by
  intro idxs
  induction idxs with
  | nil =>
    intro _ i hi
    exact absurd hi (by simp)
  | cons j rest ih =>
    intro h i hi
    simp only [Hash_map.eq_scan] at h
    cases hc : Hash_map.contains hash b (a.keys_.getD j 0) with
    | none =>
      rw [hc] at h
      exact absurd (show (none : Option Bool) = some true from h) (by simp)
    | some bb =>
      rw [hc] at h
      cases bb with
      | false =>
        exact absurd (show (some false : Option Bool) = some true from h) (by simp)
      | true =>
        cases hv : Hash_map.value_at hash b (a.keys_.getD j 0) with
        | none =>
          rw [hv] at h
          exact absurd (show (none : Option Bool) = some true from h) (by simp)
        | some v =>
          rw [hv] at h
          have h2 : (if a.values_.getD j 0 ≠ v then some false
              else Hash_map.eq_scan hash a b rest) = some true := h
          by_cases hne : a.values_.getD j 0 ≠ v
          · rw [if_pos hne] at h2
            exact absurd h2 (by simp)
          · rw [if_neg hne] at h2
            rcases List.mem_cons.mp hi with hij | hirest
            · subst hij
              have hveq : v = a.values_.getD i 0 := by omega
              exact ⟨hc, by rw [hv, hveq]⟩
            · exact ih h2 i hirest

/-- C4 (corrected), amended claim: the sound direction only — if `A == B`
returns true then the live counts match and every live key of `A` is
contained in `B` with an equal value.  The converse direction of the claimed
iff fails (see the counterexample): the scan also probes the placeholder
keys of Empty and Tombstone slots, so maps with identical live associations
can compare unequal. -/
theorem c4_eq_sound {hash : Nat → Nat} {a b : Hash_map}
    (h : Hash_map.eq_op hash a b = some true) :
    a.size_ = b.size_ ∧
    ∀ i, i < a.capacity_ → a.marks_.getD i Mark.null = Mark.live →
      Hash_map.contains hash b (a.keys_.getD i 0) = some true ∧
      Hash_map.value_at hash b (a.keys_.getD i 0) = some (a.values_.getD i 0) := by
  rw [Hash_map.eq_op] at h
  by_cases hsz : a.size_ ≠ b.size_
  · rw [if_pos hsz] at h
    exact absurd h (by simp)
  · rw [if_neg hsz] at h
    refine ⟨by omega, ?_⟩
    intro i hi _
    exact eq_scan_sound _ h i (List.mem_range.mpr hi)

/-- Witness for C4's amended claim: a map whose single live entry is the
default key 0 with the default value 0 compares equal to itself, and the
sound direction yields its containment facts. -/
theorem c4_eq_sound_witness :
    Hash_map.contains id_hash c4_map 0 = some true ∧
    Hash_map.value_at id_hash c4_map 0 = some 0 := by
  have heq : Hash_map.eq_op id_hash c4_map c4_map = some true := by
    rw [c4_map_eq]
    rfl
  have h := c4_eq_sound heq
  have h0 := h.2 0 (by rw [c4_map_eq]; decide) (by rw [c4_map_eq]; decide)
  have hk : c4_map.keys_.getD 0 0 = 0 := by rw [c4_map_eq]; rfl
  have hv : c4_map.values_.getD 0 0 = 0 := by rw [c4_map_eq]; rfl
  rw [hk, hv] at h0
  exact h0

/-- C5 (code_bug): the copy constructor's element loop runs
`values_[i] = other.keys_[i];`, filling the copy's values region from the
source's keys region: for a source with the single live entry `1 ↦ 7`, the
copy reports value 1 — not 7 — for key 1, and its values array equals its
keys array; copy assignment (`operator=`) copies the values correctly. -/
theorem c5_copy_values_from_keys :
    Hash_map.value_at id_hash c5_map 1 = some 7 ∧
    Hash_map.value_at id_hash (Hash_map.copy_ctor c5_map) 1 = some 1 ∧
    (Hash_map.copy_ctor c5_map).values_ = (Hash_map.copy_ctor c5_map).keys_ ∧
    Hash_map.contains id_hash (Hash_map.copy_ctor c5_map) 1 = some true ∧
    Hash_map.value_at id_hash (Hash_map.assign c5_map) 1 = some 7 := by
  rw [c5_map_eq]
  exact ⟨rfl, rfl, rfl, rfl, rfl⟩

/-- C6 (confirmed): in every reachable state, when `seek(k)` returns an Empty
slot, no slot whose stored key matches `k` and is Occupied or Tombstone lies
strictly further along the probe chain from `k`'s home index — equivalently,
no live entry is ever separated from its home index by an Empty slot, so
lookups after deletions resolve correctly. -/
theorem c6_seek_no_empty_before_match {hash : Nat → Nat} {m : Hash_map} {k index : Nat}
    (hreach : Reachable hash m)
    (hseek : Hash_map.seek hash m k = some index)
    (hempty : m.marks_.getD index Mark.null = Mark.null) :
    ∀ j, j < m.capacity_ →
      ¬(m.keys_.getD j 0 = k ∧ m.marks_.getD j Mark.null ≠ Mark.null ∧
        Hash_map.dist m.capacity_ (hash k &&& Hash_map.keep_bits m) index <
          Hash_map.dist m.capacity_ (hash k &&& Hash_map.keep_bits m) j) := by
  intro j hj hcontra
  obtain ⟨hkey, hmark, hlt⟩ := hcontra
  have hInv := Hash_map.Inv_reachable hreach
  obtain hcap0 | ⟨n, hc⟩ := hInv.cap_pow
  · omega
  have hcapne : m.capacity_ ≠ 0 := by rw [hc]; exact (Nat.two_pow_pos n).ne'
  have hkb : Hash_map.keep_bits m = m.capacity_ - 1 := Hash_map.keep_bits_eq hcapne
  rw [hkb] at hlt
  have hchain := hInv.chain j hj hmark
  rw [hkey] at hchain
  have hstart : hash k &&& (m.capacity_ - 1) < m.capacity_ := Hash_map.mask_lt hc _
  have hindexlt : index < m.capacity_ := Hash_map.seek_some_lt hc hseek
  have hwi : Hash_map.walk (m.capacity_ - 1) (hash k &&& (m.capacity_ - 1))
      (Hash_map.dist m.capacity_ (hash k &&& (m.capacity_ - 1)) index) = index :=
    Hash_map.walk_dist hc hstart hindexlt
  have hstop := hchain _ hlt
  rw [hwi, Hash_map.stop_on_false_iff] at hstop
  exact hstop.2 hempty

/-- Witness for C6 on a fresh map: `seek(1)` resolves to the Empty slot 1,
and slot 0 is not a matching slot further along the chain. -/
theorem c6_seek_no_empty_before_match_witness :
    ¬(fresh_map.keys_.getD 0 0 = 1 ∧ fresh_map.marks_.getD 0 Mark.null ≠ Mark.null ∧
      Hash_map.dist fresh_map.capacity_ (id_hash 1 &&& Hash_map.keep_bits fresh_map) 1 <
        Hash_map.dist fresh_map.capacity_ (id_hash 1 &&& Hash_map.keep_bits fresh_map) 0) :=
  c6_seek_no_empty_before_match (Reachable.construct 4 (3 / 4) (by norm_num))
    (by decide) (by decide) 0 (by decide)

/-- C7 (code_bug): `set_max_load_factor(0.05)` clamps to 0.20 and recomputes
`threshold = ⌊0.2 × 4⌋ = 0`; since `size_ ≥ 0` always holds, this triggers
the (single) growth step, whose internal `clear()` zeroes
`max_load_factor_` — so `max_load_factor()` afterwards returns 0, not the
clamped 0.20 the claim requires.  `set_max_load_factor(0.9)` on the same
fresh map takes the no-growth path and does return the clamped 0.75. -/
theorem c7_set_maxlf_growth_zeroes_factor :
    Hash_map.normalize_maxlf (1 / 20) = 1 / 5 ∧
    (Hash_map.set_max_load_factor id_hash fresh_map (1 / 20)).map
      Hash_map.max_load_factor_ = some 0 ∧
    (Hash_map.set_max_load_factor id_hash fresh_map (9 / 10)).map
      Hash_map.max_load_factor_ = some (3 / 4) := by
  have h1 : Hash_map.set_max_load_factor id_hash fresh_map (1 / 20) =
      some grown_empty := by
    rw [fresh_map_eq]
    simp only [Hash_map.set_max_load_factor]
    rw [Hash_map.normalize_maxlf_120,
      show ((fresh_lit.capacity_ : ℚ)) = ((4 : Nat) : ℚ) from rfl, Hash_map.qtrunc_15_4]
    rfl
  have h2 : Hash_map.set_max_load_factor id_hash fresh_map (9 / 10) =
      some { fresh_lit with max_load_factor_ := 3 / 4, threshold_size_ := 3 } := by
    rw [fresh_map_eq]
    simp only [Hash_map.set_max_load_factor]
    rw [Hash_map.normalize_maxlf_910,
      show ((fresh_lit.capacity_ : ℚ)) = ((4 : Nat) : ℚ) from rfl, Hash_map.qtrunc_34_4]
    rfl
  refine ⟨Hash_map.normalize_maxlf_120, ?_, ?_⟩
  · rw [h1, Option.map_some']
    rfl
  · rw [h2, Option.map_some']

/-- C8 (confirmed): when `seek(k)` resolves to a slot that is not Occupied
(an Empty slot, or a Tombstone), `remove(k)` returns the state unchanged —
size, capacity and every slot identical — and `remove` is idempotent:
removing the same key twice always equals removing it once. -/
theorem c8_remove_absent_noop {hash : Nat → Nat} {m : Hash_map} {k index : Nat}
    (hseek : Hash_map.seek hash m k = some index)
    (hnotlive : m.marks_.getD index Mark.null ≠ Mark.live) :
    Hash_map.remove hash m k = some m ∧
    ∀ m1 m2, Hash_map.remove hash m1 k = some m2 →
      Hash_map.remove hash m2 k = some m2 := by
  constructor
  · simp only [Hash_map.remove, hseek, Option.map_some']
    rw [if_neg hnotlive]
  · intro m1 m2 h12
    cases hs1 : Hash_map.seek hash m1 k with
    | none =>
      simp only [Hash_map.remove, hs1, Option.map_none'] at h12
      exact absurd h12 (by simp)
    | some r1 =>
      simp only [Hash_map.remove, hs1, Option.map_some', Option.some.injEq] at h12
      by_cases hlive : m1.marks_.getD r1 Mark.null = Mark.live
      · rw [if_pos hlive] at h12
        have hr : r1 < m1.marks_.length := by
          by_contra hge
          rw [Hash_map.getD_of_le (by omega)] at hlive
          exact absurd hlive (by decide)
        have hstop : Hash_map.seek_stop m2 k = Hash_map.seek_stop m1 k := by
          rw [← h12]
          exact Hash_map.stop_on_set_dead hlive
        have hcap : m2.capacity_ = m1.capacity_ := by rw [← h12]
        have hkb : Hash_map.keep_bits m2 = Hash_map.keep_bits m1 := by
          rw [Hash_map.keep_bits, Hash_map.keep_bits, hcap]
        have hseek2 : Hash_map.seek hash m2 k = some r1 := by
          rw [Hash_map.seek, hstop, hkb, hcap]
          rw [Hash_map.seek] at hs1
          exact hs1
        have hdead : m2.marks_.getD r1 Mark.null = Mark.dead := by
          rw [← h12]
          exact Hash_map.getD_set_self hr
        simp only [Hash_map.remove, hseek2, Option.map_some', Option.some.injEq]
        rw [if_neg (by rw [hdead]; decide)]
      · rw [if_neg hlive] at h12
        rw [← h12]
        simp only [Hash_map.remove, hs1, Option.map_some']
        rw [if_neg hlive]

/-- Witness for C8: removing the never-inserted key 1 from a fresh map
returns it unchanged. -/
theorem c8_remove_absent_noop_witness :
    Hash_map.remove id_hash fresh_map 1 = some fresh_map :=
  (@c8_remove_absent_noop id_hash fresh_map 1 1 (by decide) (by decide)).1

/-- C9 (confirmed): on a table of power-of-two capacity, the probe loop of
`seek(k)` never terminates (it returns `none` for every amount of fuel) when
every slot is Occupied or Tombstone and no stored key equals `k`;
conversely, as soon as some slot is Empty or some slot's stored key equals
`k`, `seek(k)` terminates.  Every lookup therefore relies on the load-factor
discipline to keep an Empty slot available. -/
theorem c9_seek_termination {hash : Nat → Nat} {m : Hash_map} {k n : Nat}
    (hc : m.capacity_ = 2 ^ n) :
    ((∀ i, i < m.capacity_ →
        m.marks_.getD i Mark.null ≠ Mark.null ∧ m.keys_.getD i 0 ≠ k) →
      ∀ fuel, Hash_map.probe (Hash_map.seek_stop m k) (Hash_map.keep_bits m) fuel
        (hash k &&& Hash_map.keep_bits m) = none) ∧
    ((∃ i, i < m.capacity_ ∧
        (m.marks_.getD i Mark.null = Mark.null ∨ m.keys_.getD i 0 = k)) →
      (Hash_map.seek hash m k).isSome) := by
  have hcapne : m.capacity_ ≠ 0 := by rw [hc]; exact (Nat.two_pow_pos n).ne'
  have hkb : Hash_map.keep_bits m = m.capacity_ - 1 := Hash_map.keep_bits_eq hcapne
  constructor
  · intro hall fuel
    rw [hkb]
    apply Hash_map.probe_eq_none
    intro t
    have hwlt : Hash_map.walk (m.capacity_ - 1) (hash k &&& (m.capacity_ - 1)) t
        < m.capacity_ := Hash_map.walk_lt hc (Hash_map.mask_lt hc _) t
    have hx := hall _ hwlt
    rw [Hash_map.seek_stop, Hash_map.stop_on_false_iff]
    exact ⟨hx.2, hx.1⟩
  · intro hex
    apply Hash_map.seek_isSome_of_stop hc
    obtain ⟨i, hi, hcase⟩ := hex
    refine ⟨i, hi, ?_⟩
    rw [Hash_map.seek_stop, Hash_map.stop_on]
    rcases hcase with hnull | hkey
    · rw [hnull]
      simp
    · rw [hkey]
      simp

/-- Witness for C9: on the all-Occupied four-slot table with no key equal to
5, the probe loop of `seek(5)` is still running after five fuel units (and,
by the theorem, after any amount); on a fresh map, `seek(5)` terminates. -/
theorem c9_seek_termination_witness :
    Hash_map.probe (Hash_map.seek_stop full_table 5) (Hash_map.keep_bits full_table) 5
      (id_hash 5 &&& Hash_map.keep_bits full_table) = none ∧
    (Hash_map.seek id_hash fresh_map 5).isSome := by
  constructor
  · exact (c9_seek_termination (by decide : full_table.capacity_ = 2 ^ 2)).1
      (by decide) 5
  · exact (c9_seek_termination (by decide : fresh_map.capacity_ = 2 ^ 2)).2
      ⟨0, by decide, Or.inl (by decide)⟩

/-- C10 (confirmed): with a power-of-two capacity, the home index and every
probe step — hence every storage index `seek` and the growth reinsertion
loop compute (both probe through `probe` with the mask
`keep_bits = capacity - 1`) — lies below the capacity, so all key/value/mark
accesses are in bounds; after `clear()` the capacity is 0 and `keep_bits`
wraps to `2⁶⁴ - 1`, so the start index `hash(k) & keep_bits = hash(k) mod
2⁶⁴` computed by the unguarded lookup operations is out of bounds. -/
theorem c10_probe_index_bounds {hash : Nat → Nat} {m : Hash_map} {n : Nat}
    (hc : m.capacity_ = 2 ^ n) :
    (∀ k, hash k &&& Hash_map.keep_bits m < m.capacity_) ∧
    (∀ i, (i + 1) &&& Hash_map.keep_bits m < m.capacity_) ∧
    (∀ (stop : Nat → Bool) (fuel start r : Nat), start < m.capacity_ →
      Hash_map.probe stop (Hash_map.keep_bits m) fuel start = some r →
      r < m.capacity_) ∧
    ((Hash_map.clear m).capacity_ = 0 ∧
      Hash_map.keep_bits (Hash_map.clear m) = 2 ^ 64 - 1 ∧
      ∀ k, hash k &&& Hash_map.keep_bits (Hash_map.clear m) = hash k % 2 ^ 64 ∧
        ¬(hash k &&& Hash_map.keep_bits (Hash_map.clear m) <
          (Hash_map.clear m).capacity_)) := by
  have hcapne : m.capacity_ ≠ 0 := by rw [hc]; exact (Nat.two_pow_pos n).ne'
  have hkb : Hash_map.keep_bits m = m.capacity_ - 1 := Hash_map.keep_bits_eq hcapne
  refine ⟨?_, ?_, ?_, rfl, rfl, ?_⟩
  · intro k
    rw [hkb]
    exact Hash_map.mask_lt hc _
  · intro i
    rw [hkb]
    exact Hash_map.mask_lt hc _
  · intro stop fuel start r hstart hp
    rw [hkb] at hp
    exact Hash_map.probe_some_lt hc hstart hp
  · intro k
    constructor
    · exact Nat.and_pow_two_sub_one_eq_mod (hash k) 64
    · exact Nat.not_lt_zero _

/-- Witness for C10 at a fresh map and the key 7. -/
theorem c10_probe_index_bounds_witness :
    id_hash 7 &&& Hash_map.keep_bits fresh_map < fresh_map.capacity_ ∧
    (Hash_map.clear fresh_map).capacity_ = 0 ∧
    ¬(id_hash 7 &&& Hash_map.keep_bits (Hash_map.clear fresh_map) <
      (Hash_map.clear fresh_map).capacity_) := by
  refine ⟨?_, ?_, ?_⟩
  · exact (c10_probe_index_bounds (by decide : fresh_map.capacity_ = 2 ^ 2)).1 7
  · exact (@c10_probe_index_bounds id_hash fresh_map 2
      (by decide : fresh_map.capacity_ = 2 ^ 2)).2.2.2.1
  · exact ((@c10_probe_index_bounds id_hash fresh_map 2
      (by decide : fresh_map.capacity_ = 2 ^ 2)).2.2.2.2.2 7).2

end dsa
